import Mathlib

/-!
Verification of the gslk linking/unlinking engine (src/linker.go).

Modelling conventions of the shallow embedding:

* A filesystem path is a list of name components (`Fpath`); `[]` is the
  filesystem root `/`.  The engine resolves its source and target roots with
  filepath.Abs before use and builds every walked path with filepath.Join
  (which cleans), so repository-generated paths are clean absolute paths and
  are modelled as plain component lists, with list append standing for
  filepath.Join on them.
* Destinations stored inside symbolic links are foreign data: they may be
  relative or unclean, so they are modelled as `SPath` (an absolute-flag plus
  components), and the places where the Go code calls filepath.Abs /
  filepath.Join on them apply `cleanAbs`, the component-level version of Go's
  filepath.Clean on an absolute path (Go's Join concatenates even when its
  second argument is absolute, and this quirk is preserved).
* The world (source and target trees together) is a finite association list
  from paths to nodes (`FS`).  os.Lstat is `FS.lookup`; os.Stat follows chains
  of symbolic links at the final component (`statFollow`, with the kernel's
  fuel bound of 40); os.Remove is `FS.removeOp` (a file or symlink is
  unlinked, a directory is removed only when no entry lies strictly below it);
  os.MkdirAll is `mkdirAll`, keeping Go's behaviour of accepting an existing
  entry that stats as a directory (including a symlink that resolves to one).
* Directory walks read the source package, which the engine never mutates, so
  a package is passed as a tree value (`FTree`); filepath.WalkDir's lexical
  pre-order is the tree's child order.
* Glob matching is delegated by the engine to path/filepath.Match, which is a
  parameter `gm : GlobMatcher` here; `Except.error ()` models ErrBadPattern.
* There is no concurrency in the engine, so the race-tolerance branch of
  os.Remove (os.IsNotExist after a successful check) can never fire; removal
  in the model is total and never fails on an absent entry.
-/

namespace Gslk

/-- components of an absolute filesystem path; `[]` is the root. -/
abbrev Fpath := List String

/-- a component that plain filesystem names can have: not empty, not `.`,
not `..` (real directory entries can never carry these names). -/
def goodName (s : String) : Bool := !(s == "") && !(s == ".") && !(s == "..")

/-- all components are plain names, i.e. the path is already clean. -/
def cleanPathB (p : Fpath) : Bool := p.all goodName

/-- worker for `cleanAbs`: `acc` holds the cleaned components reversed. -/
def cleanAbsAux : List String → List String → List String
  | acc, [] => acc.reverse
  | acc, c :: cs =>
    if c = "." ∨ c = "" then cleanAbsAux acc cs
    else if c = ".." then cleanAbsAux acc.tail cs
    else cleanAbsAux (c :: acc) cs

/-- Go's filepath.Clean on an absolute path, at the component level: drops
`.` and empty components and resolves `..` (discarding it at the root). -/
def cleanAbs (p : List String) : List String := cleanAbsAux [] p

/-- component-wise path-prefix test (`strings.HasPrefix` on rendered paths,
restricted to whole components). -/
def isPre : Fpath → Fpath → Bool
  | [], _ => true
  | _ :: _, [] => false
  | a :: as, b :: bs => a == b && isPre as bs

/-- the string form of a relative path, as filepath.Join produces it. -/
def renderRel (rel : Fpath) : String := String.intercalate "/" rel

/-- filepath.Base of a non-empty relative path: its final component. -/
def baseName (rel : Fpath) : String := (rel.getLast?).getD ""

/-- a possibly-relative, possibly-unclean path as stored inside a symlink. -/
structure SPath where
  isAbsolute : Bool
  comps : List String
deriving DecidableEq

/-- Go's filepath.Abs: Clean when absolute, otherwise Join with the working
directory (which is clean and absolute). -/
def absPath (cwd : Fpath) (s : SPath) : Fpath :=
  if s.isAbsolute then cleanAbs s.comps else cleanAbs (cwd ++ s.comps)

/-- one node of the filesystem. -/
inductive Node where
  | file (content : String)
  | dir
  | symlink (dest : SPath)
deriving DecidableEq

/-- the world: a finite association list from absolute clean paths to nodes. -/
abbrev FS := List (Fpath × Node)

/-- os.Lstat: look the path up without following symlinks. -/
def FS.lookup (fs : FS) (p : Fpath) : Option Node :=
  match fs with
  | [] => none
  | (q, n) :: rest => if q = p then some n else FS.lookup rest p

/-- drop every entry at exactly `p`. -/
def FS.erase (fs : FS) (p : Fpath) : FS := fs.filter (fun e => !(e.1 == p))

/-- bind `p` to `n`, replacing any previous binding. -/
def FS.set (fs : FS) (p : Fpath) (n : Node) : FS := (p, n) :: FS.erase fs p

/-- does any entry lie strictly below `p`? (a directory with one is not
empty). -/
def FS.hasEntryUnder (fs : FS) (p : Fpath) : Bool :=
  fs.any (fun e => isPre p e.1 && !(e.1 == p))

/-- os.Remove: a file or symlink is unlinked; a directory is removed only when
nothing lies below it; a missing path is an error (`none`). -/
def FS.removeOp (fs : FS) (p : Fpath) : Option FS :=
  match FS.lookup fs p with
  | none => none
  | some Node.dir =>
    if FS.hasEntryUnder fs p then none else some (FS.erase fs p)
  | some _ => some (FS.erase fs p)

/-- where the destination of the symlink at `p` points: an absolute stored
destination is cleaned, a relative one is resolved against `p`'s directory. -/
def destPath (p : Fpath) (d : SPath) : Fpath :=
  if d.isAbsolute then cleanAbs d.comps else cleanAbs (p.dropLast ++ d.comps)

/-- the kernel's symlink-following bound. -/
def statFuel : Nat := 40

/-- os.Stat at the final component: follow chains of symlinks; `none` is any
stat failure (missing entry, dangling link or a cycle running out of fuel). -/
def statFollow (fs : FS) : Nat → Fpath → Option Node
  | 0, _ => none
  | fuel + 1, p =>
    match FS.lookup fs p with
    | some (Node.symlink d) => statFollow fs fuel (destPath p d)
    | r => r

/-- worker for `mkdirAll`; the recursion on the parent path is driven by a
fuel argument kept strictly above the path length (the parent has one
component fewer, so the fuel never runs out from `mkdirAll`). -/
def mkdirAllAux (fs : FS) : Nat → Fpath → FS × Bool
  | 0, _ => (fs, false)
  | fuel + 1, p =>
    match statFollow fs statFuel p with
    | some Node.dir => (fs, true)
    | some _ => (fs, false)
    | none =>
      match p with
      | [] => (fs, true)
      | a :: as =>
        match mkdirAllAux fs fuel (a :: as).dropLast with
        | (fs1, false) => (fs1, false)
        | (fs1, true) =>
          match FS.lookup fs1 (a :: as) with
          | some Node.dir => (fs1, true)
          | some _ => (fs1, false)
          | none => (FS.set fs1 (a :: as) Node.dir, true)

/-- os.MkdirAll: an existing entry that stats as a directory is accepted as
is; an existing non-directory is an error; otherwise the parents are made
first and then the directory itself, failing when a non-directory entry
(e.g. a dangling symlink) already occupies the path.  The boolean is
success; on failure the partially created parents are kept, as in Go. -/
def mkdirAll (fs : FS) (p : Fpath) : FS × Bool :=
  mkdirAllAux fs (p.length + 1) p

/-- path/filepath.Match as the engine sees it: a verdict, or `Except.error ()`
for ErrBadPattern on a malformed pattern. -/
abbrev GlobMatcher := String → String → Except Unit Bool

/-- the per-pattern test of linker.go lines 166-193 (the loop at lines
335-360 is a verbatim copy): match the pattern against the full relative
path; a malformed pattern is skipped (never a match); when the full path does
not match and the pattern has no separator, match against the basename,
again skipping a malformed pattern. -/
def patternIgnores (gm : GlobMatcher) (pattern : String) (rel : Fpath) : Bool :=
  match gm pattern (renderRel rel) with
  | Except.error _ => false
  | Except.ok true => true
  | Except.ok false =>
    if pattern.contains '/' then false
    else
      match gm pattern (baseName rel) with
      | Except.error _ => false
      | Except.ok m => m

/-- a relative path is ignored when any loaded pattern matches it. -/
def isIgnored (gm : GlobMatcher) (patterns : List String) (rel : Fpath) : Bool :=
  patterns.any (fun p => patternIgnores gm p rel)

/-- a source tree node: the contents of a package directory, children in
filepath.WalkDir's lexical order. -/
inductive FTree where
  | file (content : String)
  | dir (children : List (String × FTree))

/-- is the tree node a directory? -/
def FTree.isDirT : FTree → Bool
  | FTree.file _ => false
  | FTree.dir _ => true

mutual

/-- well-formedness of a source tree: every entry name is a plain name and
sibling names are distinct (true of every real directory tree). -/
def FTree.wfB : FTree → Bool
  | FTree.file _ => true
  | FTree.dir cs => FTree.wfChildrenB cs && decide ((cs.map Prod.fst).Nodup)

/-- well-formedness of a child list. -/
def FTree.wfChildrenB : List (String × FTree) → Bool
  | [] => true
  | (name, t) :: rest => goodName name && FTree.wfB t && FTree.wfChildrenB rest

end

/-- find a directory entry by name (os.ReadDir names are unique). -/
def lookupChild : List (String × FTree) → String → Option FTree
  | [], _ => none
  | (name, t) :: rest, n => if name = n then some t else lookupChild rest n

/-- the line-filter of loadIgnorePatterns: split into lines, trim whitespace,
drop blank lines and comments. -/
def parseIgnoreLines (content : String) : List String :=
  ((content.splitOn "\n").map String.trim).filter
    (fun l => !(l == "") && !(l.startsWith "#"))

/-- loadIgnorePatterns (linker.go lines 91-118): read `.gslk-ignore` at the
package root; a missing file yields no patterns; a directory of that name
makes the read fail (os.Open succeeds on it but reading returns EISDIR). -/
def loadIgnorePatterns (pkg : FTree) : Except Unit (List String) :=
  match pkg with
  | FTree.file _ => Except.ok []
  | FTree.dir cs =>
    match lookupChild cs ".gslk-ignore" with
    | none => Except.ok []
    | some (FTree.file c) => Except.ok (parseIgnoreLines c)
    | some (FTree.dir _) => Except.error ()

/-- one planned node of a package walk: its package-relative path and whether
it is a directory. -/
structure PathEntry where
  rel : Fpath
  isDir : Bool
deriving DecidableEq

mutual

/-- the walk-callback filtering of Link/Unlink applied to one source node
named `name` at relative directory `rel`: a node whose basename is
`.gslk-ignore` is skipped (but, being skipped with a plain return, a
directory of that name is still descended into); an ignored directory is
pruned whole (filepath.SkipDir); an ignored file is skipped alone; every
retained node yields an entry before its children. -/
def planNode (gm : GlobMatcher) (patterns : List String) (rel : Fpath)
    (name : String) : FTree → List PathEntry
  | FTree.file _ =>
    if name = ".gslk-ignore" then []
    else if isIgnored gm patterns (rel ++ [name]) then []
    else [⟨rel ++ [name], false⟩]
  | FTree.dir cs =>
    if name = ".gslk-ignore" then planChildren gm patterns (rel ++ [name]) cs
    else if isIgnored gm patterns (rel ++ [name]) then []
    else ⟨rel ++ [name], true⟩ :: planChildren gm patterns (rel ++ [name]) cs

/-- plan every child of a directory, in walk order. -/
def planChildren (gm : GlobMatcher) (patterns : List String) (rel : Fpath) :
    List (String × FTree) → List PathEntry
  | [] => []
  | (name, t) :: rest =>
    planNode gm patterns rel name t ++ planChildren gm patterns rel rest

end

/-- the planned entries of a package walk (the package root itself is
skipped by the callback). -/
def planTop (gm : GlobMatcher) (patterns : List String) : FTree → List PathEntry
  | FTree.file _ => []
  | FTree.dir cs => planChildren gm patterns [] cs

/-- the error kinds the engine surfaces (each Go error string is one case;
wrapping with package context is dropped). -/
inductive GErr where
  | emptyCatalog
  | packageNotFound (name : String)
  | ignoreLoadFailed (name : String)
  | mkdirFailed (dir : Fpath)
  | conflict (target : Fpath)
  | verification (target : Fpath)
deriving DecidableEq

/-- the Linker of src/linker.go lines 17-21: source and target roots,
resolved to absolute paths by the callers. -/
structure Linker where
  SourceDir : Fpath
  TargetDir : Fpath

/-- the expected-symlink test of Link (lines 223-245): the stored destination
equals the source path literally, or after resolving it against the link's
directory (filepath.Join concatenates even an absolute stored destination,
and that quirk is kept). -/
def linkMatches (sourcePath targetPath : Fpath) (lt : SPath) : Bool :=
  let absSourcePath := cleanAbs sourcePath
  let absLinkTarget := cleanAbs (targetPath.dropLast ++ lt.comps)
  (lt == SPath.mk true sourcePath) || (absLinkTarget == absSourcePath)

/-- an existing node at a target path that is not the expected symlink: a
non-symlink, or a symlink failing `linkMatches`. -/
def notExpected (sourcePath targetPath : Fpath) (n : Node) : Bool :=
  match n with
  | Node.symlink lt => !linkMatches sourcePath targetPath lt
  | _ => true

/-- Link's handling of one planned entry (lines 195-274): a directory is
materialized with MkdirAll; for a file, an absent target gets its parent
directory made and a symlink to the absolute source path created, an
existing matching symlink is skipped, and anything else is a conflict. -/
def linkEntry (srcPkg tgtRoot : Fpath) (fs : FS) (e : PathEntry) :
    FS × Option GErr :=
  if e.isDir then
    match mkdirAll fs (tgtRoot ++ e.rel) with
    | (fs1, true) => (fs1, none)
    | (fs1, false) => (fs1, some (GErr.mkdirFailed (tgtRoot ++ e.rel)))
  else
    match FS.lookup fs (tgtRoot ++ e.rel) with
    | some n =>
      match n with
      | Node.symlink lt =>
        if linkMatches (srcPkg ++ e.rel) (tgtRoot ++ e.rel) lt then (fs, none)
        else (fs, some (GErr.conflict (tgtRoot ++ e.rel)))
      | _ => (fs, some (GErr.conflict (tgtRoot ++ e.rel)))
    | none =>
      match mkdirAll fs (tgtRoot ++ e.rel).dropLast with
      | (fs1, false) =>
        (fs1, some (GErr.mkdirFailed (tgtRoot ++ e.rel).dropLast))
      | (fs1, true) =>
        (FS.set fs1 (tgtRoot ++ e.rel)
          (Node.symlink (SPath.mk true (cleanAbs (srcPkg ++ e.rel)))),
         none)

/-- process planned entries in order, stopping at the first error and keeping
whatever was already applied (no rollback). -/
def linkEntries (srcPkg tgtRoot : Fpath) (fs : FS) :
    List PathEntry → FS × Option GErr
  | [] => (fs, none)
  | e :: es =>
    match linkEntry srcPkg tgtRoot fs e with
    | (fs1, some err) => (fs1, some err)
    | (fs1, none) => linkEntries srcPkg tgtRoot fs1 es

/-- FindPackages (lines 24-46): every directory entry of the source root is a
package. -/
def findPackages (entries : List (String × FTree)) : List (String × FTree) :=
  entries.filter (fun e => FTree.isDirT e.2)

/-- the packagesToLink map lookup. -/
def findPackage (pkgs : List (String × FTree)) (name : String) : Option FTree :=
  lookupChild pkgs name

/-- link one resolved package: load its ignore patterns, walk it, process
every planned entry. -/
def linkPackage (gm : GlobMatcher) (srcDir tgtDir : Fpath) (name : String)
    (pkg : FTree) (fs : FS) : FS × Option GErr :=
  match loadIgnorePatterns pkg with
  | Except.error _ => (fs, some (GErr.ignoreLoadFailed name))
  | Except.ok patterns =>
    linkEntries (srcDir ++ [name]) tgtDir fs (planTop gm patterns pkg)

/-- link the named packages in caller order, stopping at the first error. -/
def linkPackages (gm : GlobMatcher) (srcDir tgtDir : Fpath)
    (pkgs : List (String × FTree)) (fs : FS) :
    List String → FS × Option GErr
  | [] => (fs, none)
  | n :: ns =>
    match findPackage pkgs n with
    | none => (fs, some (GErr.packageNotFound n))
    | some pkg =>
      match linkPackage gm srcDir tgtDir n pkg fs with
      | (fs1, some err) => (fs1, some err)
      | (fs1, none) => linkPackages gm srcDir tgtDir pkgs fs1 ns

/-- Link (lines 122-284).  `entries` is the directory listing of the source
root; FindPackages fails when it holds no subdirectory. -/
def Linker.Link (l : Linker) (gm : GlobMatcher)
    (entries : List (String × FTree)) (names : List String) (fs : FS) :
    FS × Option GErr :=
  match findPackages entries with
  | [] => (fs, some GErr.emptyCatalog)
  | pkgs => linkPackages gm l.SourceDir l.TargetDir pkgs fs names

/-- the upward climb of removeEmptyParents (lines 60-86): stop on reaching
the base directory, the filesystem root, or a path no longer under the base;
otherwise attempt os.Remove and continue upward on success, stopping quietly
on failure (for a directory this means it was not empty).  The recursion is
driven by a fuel kept strictly above the path length (each step drops one
component), so the fuel never runs out from `removeEmptyParents`. -/
def removeEmptyParentsLoop (absBaseDir : Fpath) : Nat → FS → Fpath → FS
  | 0, fs, _ => fs
  | fuel + 1, fs, parentDir =>
    if parentDir == absBaseDir || parentDir.isEmpty ||
        !isPre absBaseDir parentDir then fs
    else
      match FS.removeOp fs parentDir with
      | none => fs
      | some fs1 =>
        removeEmptyParentsLoop absBaseDir fuel fs1 parentDir.dropLast

/-- removeEmptyParents (lines 51-87): climb from the immediate parent of the
removed link. -/
def removeEmptyParents (fs : FS) (targetPath : Fpath) (baseDir : Fpath) : FS :=
  removeEmptyParentsLoop (cleanAbs baseDir) (targetPath.dropLast.length + 1)
    fs targetPath.dropLast

/-- Unlink's handling of one planned entry (lines 362-419): an absent target
or a non-symlink is left alone; a symlink is removed exactly when its
absolute destination equals the absolute source path, after which empty
parents are pruned.  There is no isDir test: directory entries go through
the same logic. -/
def unlinkEntry (cwd srcPkg tgtRoot : Fpath) (fs : FS) (e : PathEntry) : FS :=
  match FS.lookup fs (tgtRoot ++ e.rel) with
  | some (Node.symlink lt) =>
    if absPath cwd lt == cleanAbs (srcPkg ++ e.rel) then
      removeEmptyParents (FS.erase fs (tgtRoot ++ e.rel)) (tgtRoot ++ e.rel)
        tgtRoot
    else fs
  | _ => fs

/-- process planned entries for unlinking, in walk order. -/
def unlinkEntries (cwd srcPkg tgtRoot : Fpath) (fs : FS) :
    List PathEntry → FS
  | [] => fs
  | e :: es =>
    unlinkEntries cwd srcPkg tgtRoot (unlinkEntry cwd srcPkg tgtRoot fs e) es

/-- unlink one resolved package. -/
def unlinkPackage (gm : GlobMatcher) (cwd srcDir tgtDir : Fpath)
    (name : String) (pkg : FTree) (fs : FS) : FS × Option GErr :=
  match loadIgnorePatterns pkg with
  | Except.error _ => (fs, some (GErr.ignoreLoadFailed name))
  | Except.ok patterns =>
    (unlinkEntries cwd (srcDir ++ [name]) tgtDir fs (planTop gm patterns pkg),
     none)

/-- unlink the named packages in caller order. -/
def unlinkPackages (gm : GlobMatcher) (cwd srcDir tgtDir : Fpath)
    (pkgs : List (String × FTree)) (fs : FS) :
    List String → FS × Option GErr
  | [] => (fs, none)
  | n :: ns =>
    match findPackage pkgs n with
    | none => (fs, some (GErr.packageNotFound n))
    | some pkg =>
      match unlinkPackage gm cwd srcDir tgtDir n pkg fs with
      | (fs1, some err) => (fs1, some err)
      | (fs1, none) => unlinkPackages gm cwd srcDir tgtDir pkgs fs1 ns

/-- Unlink (lines 289-428).  `cwd` is the process working directory, used by
filepath.Abs on stored link destinations. -/
def Linker.Unlink (l : Linker) (gm : GlobMatcher) (cwd : Fpath)
    (entries : List (String × FTree)) (names : List String) (fs : FS) :
    FS × Option GErr :=
  match findPackages entries with
  | [] => (fs, some GErr.emptyCatalog)
  | pkgs => unlinkPackages gm cwd l.SourceDir l.TargetDir pkgs fs names

/-- Modelled from the spec: the residue test of the post-unlink verification
(spec §4.5), which is absent from src/linker.go although repository callers
rely on it — a file entry's target is residual when it is still a symlink
whose resolved absolute destination equals the absolute source path. -/
def residualEntry (cwd srcPkg tgtRoot : Fpath) (fs : FS) (e : PathEntry) :
    Bool :=
  !e.isDir &&
    (match FS.lookup fs (tgtRoot ++ e.rel) with
     | some (Node.symlink lt) => absPath cwd lt == cleanAbs (srcPkg ++ e.rel)
     | _ => false)

/-- Modelled from the spec: scan re-planned entries for a residual link,
reporting the first offending target path. -/
def verifyEntries (cwd srcPkg tgtRoot : Fpath) (fs : FS) :
    List PathEntry → Option GErr
  | [] => none
  | e :: es =>
    if residualEntry cwd srcPkg tgtRoot fs e then
      some (GErr.verification (tgtRoot ++ e.rel))
    else verifyEntries cwd srcPkg tgtRoot fs es

/-- Modelled from the spec: re-plan one package and scan it for residue. -/
def verifyPackage (gm : GlobMatcher) (cwd srcDir tgtDir : Fpath)
    (name : String) (pkg : FTree) (fs : FS) : Option GErr :=
  match loadIgnorePatterns pkg with
  | Except.error _ => some (GErr.ignoreLoadFailed name)
  | Except.ok patterns =>
    verifyEntries cwd (srcDir ++ [name]) tgtDir fs (planTop gm patterns pkg)

/-- Modelled from the spec: verify every requested package after unlinking. -/
def verifyPackages (gm : GlobMatcher) (cwd srcDir tgtDir : Fpath)
    (pkgs : List (String × FTree)) (fs : FS) : List String → Option GErr
  | [] => none
  | n :: ns =>
    match findPackage pkgs n with
    | none => some (GErr.packageNotFound n)
    | some pkg =>
      match verifyPackage gm cwd srcDir tgtDir n pkg fs with
      | some e => some e
      | none => verifyPackages gm cwd srcDir tgtDir pkgs fs ns

/-- Modelled from the spec (§4.5 post-unlink verification): after all
requested packages are processed, re-plan each package's paths and fail with
a VerificationError when a residual matching link remains. -/
def Linker.UnlinkVerified (l : Linker) (gm : GlobMatcher) (cwd : Fpath)
    (entries : List (String × FTree)) (names : List String) (fs : FS) :
    FS × Option GErr :=
  match l.Unlink gm cwd entries names fs with
  | (fs1, some e) => (fs1, some e)
  | (fs1, none) =>
    (fs1,
     verifyPackages gm cwd l.SourceDir l.TargetDir (findPackages entries) fs1
       names)

/-- does any requested package still hold a residual matching link? -/
def anyResidual (gm : GlobMatcher) (cwd srcDir tgtDir : Fpath)
    (pkgs : List (String × FTree)) (fs : FS) (names : List String) : Bool :=
  names.any (fun n =>
    match findPackage pkgs n with
    | none => false
    | some pkg =>
      match loadIgnorePatterns pkg with
      | Except.error _ => false
      | Except.ok patterns =>
        (planTop gm patterns pkg).any
          (residualEntry cwd (srcDir ++ [n]) tgtDir fs))

/-- Modelled from the spec (§4.4 dry-run): Link's handling of one entry with
a dry-run switch — src/linker.go's Linker lacks the DryRun field its
repository callers set, so the mutation guard follows the spec's words:
every check runs, every filesystem mutation is omitted when `dryRun`. -/
def linkEntryMode (dryRun : Bool) (srcPkg tgtRoot : Fpath) (fs : FS)
    (e : PathEntry) : FS × Option GErr :=
  if e.isDir then
    match mkdirAll fs (tgtRoot ++ e.rel) with
    | (fs1, true) => ((if dryRun then fs else fs1), none)
    | (fs1, false) =>
      ((if dryRun then fs else fs1),
       some (GErr.mkdirFailed (tgtRoot ++ e.rel)))
  else
    match FS.lookup fs (tgtRoot ++ e.rel) with
    | some n =>
      match n with
      | Node.symlink lt =>
        if linkMatches (srcPkg ++ e.rel) (tgtRoot ++ e.rel) lt then (fs, none)
        else (fs, some (GErr.conflict (tgtRoot ++ e.rel)))
      | _ => (fs, some (GErr.conflict (tgtRoot ++ e.rel)))
    | none =>
      match mkdirAll fs (tgtRoot ++ e.rel).dropLast with
      | (fs1, false) =>
        ((if dryRun then fs else fs1),
         some (GErr.mkdirFailed (tgtRoot ++ e.rel).dropLast))
      | (fs1, true) =>
        ((if dryRun then fs
          else FS.set fs1 (tgtRoot ++ e.rel)
            (Node.symlink (SPath.mk true (cleanAbs (srcPkg ++ e.rel))))),
         none)

/-- Modelled from the spec: entry loop of Link with the dry-run switch. -/
def linkEntriesMode (dryRun : Bool) (srcPkg tgtRoot : Fpath) (fs : FS) :
    List PathEntry → FS × Option GErr
  | [] => (fs, none)
  | e :: es =>
    match linkEntryMode dryRun srcPkg tgtRoot fs e with
    | (fs1, some err) => (fs1, some err)
    | (fs1, none) => linkEntriesMode dryRun srcPkg tgtRoot fs1 es

/-- Modelled from the spec: per-package Link with the dry-run switch. -/
def linkPackageMode (dryRun : Bool) (gm : GlobMatcher) (srcDir tgtDir : Fpath)
    (name : String) (pkg : FTree) (fs : FS) : FS × Option GErr :=
  match loadIgnorePatterns pkg with
  | Except.error _ => (fs, some (GErr.ignoreLoadFailed name))
  | Except.ok patterns =>
    linkEntriesMode dryRun (srcDir ++ [name]) tgtDir fs (planTop gm patterns pkg)

/-- Modelled from the spec: package loop of Link with the dry-run switch. -/
def linkPackagesMode (dryRun : Bool) (gm : GlobMatcher) (srcDir tgtDir : Fpath)
    (pkgs : List (String × FTree)) (fs : FS) :
    List String → FS × Option GErr
  | [] => (fs, none)
  | n :: ns =>
    match findPackage pkgs n with
    | none => (fs, some (GErr.packageNotFound n))
    | some pkg =>
      match linkPackageMode dryRun gm srcDir tgtDir n pkg fs with
      | (fs1, some err) => (fs1, some err)
      | (fs1, none) => linkPackagesMode dryRun gm srcDir tgtDir pkgs fs1 ns

/-- Modelled from the spec: Link with the dry-run switch. -/
def Linker.LinkMode (l : Linker) (dryRun : Bool) (gm : GlobMatcher)
    (entries : List (String × FTree)) (names : List String) (fs : FS) :
    FS × Option GErr :=
  match findPackages entries with
  | [] => (fs, some GErr.emptyCatalog)
  | pkgs => linkPackagesMode dryRun gm l.SourceDir l.TargetDir pkgs fs names

/-- Modelled from the spec (§4.5 dry-run): Unlink's handling of one entry
with the dry-run switch — the removal and the parent pruning are omitted
when `dryRun`, the checks still run. -/
def unlinkEntryMode (dryRun : Bool) (cwd srcPkg tgtRoot : Fpath) (fs : FS)
    (e : PathEntry) : FS :=
  match FS.lookup fs (tgtRoot ++ e.rel) with
  | some (Node.symlink lt) =>
    if absPath cwd lt == cleanAbs (srcPkg ++ e.rel) then
      if dryRun then fs
      else removeEmptyParents (FS.erase fs (tgtRoot ++ e.rel))
        (tgtRoot ++ e.rel) tgtRoot
    else fs
  | _ => fs

/-- Modelled from the spec: entry loop of Unlink with the dry-run switch. -/
def unlinkEntriesMode (dryRun : Bool) (cwd srcPkg tgtRoot : Fpath) (fs : FS) :
    List PathEntry → FS
  | [] => fs
  | e :: es =>
    unlinkEntriesMode dryRun cwd srcPkg tgtRoot
      (unlinkEntryMode dryRun cwd srcPkg tgtRoot fs e) es

/-- Modelled from the spec: per-package Unlink with the dry-run switch. -/
def unlinkPackageMode (dryRun : Bool) (gm : GlobMatcher)
    (cwd srcDir tgtDir : Fpath) (name : String) (pkg : FTree) (fs : FS) :
    FS × Option GErr :=
  match loadIgnorePatterns pkg with
  | Except.error _ => (fs, some (GErr.ignoreLoadFailed name))
  | Except.ok patterns =>
    (unlinkEntriesMode dryRun cwd (srcDir ++ [name]) tgtDir fs
      (planTop gm patterns pkg),
     none)

/-- Modelled from the spec: package loop of Unlink with the dry-run switch. -/
def unlinkPackagesMode (dryRun : Bool) (gm : GlobMatcher)
    (cwd srcDir tgtDir : Fpath) (pkgs : List (String × FTree)) (fs : FS) :
    List String → FS × Option GErr
  | [] => (fs, none)
  | n :: ns =>
    match findPackage pkgs n with
    | none => (fs, some (GErr.packageNotFound n))
    | some pkg =>
      match unlinkPackageMode dryRun gm cwd srcDir tgtDir n pkg fs with
      | (fs1, some err) => (fs1, some err)
      | (fs1, none) => unlinkPackagesMode dryRun gm cwd srcDir tgtDir pkgs fs1 ns

/-- Modelled from the spec: Unlink with the dry-run switch. -/
def Linker.UnlinkMode (l : Linker) (dryRun : Bool) (gm : GlobMatcher)
    (cwd : Fpath) (entries : List (String × FTree)) (names : List String)
    (fs : FS) : FS × Option GErr :=
  match findPackages entries with
  | [] => (fs, some GErr.emptyCatalog)
  | pkgs => unlinkPackagesMode dryRun gm cwd l.SourceDir l.TargetDir pkgs fs names

/-- `fs'` keeps every binding of `fs` (link operations only add entries). -/
def FS.Extends (fs' fs : FS) : Prop :=
  ∀ p n, FS.lookup fs p = some n → FS.lookup fs' p = some n

/-- `fs'` has no binding beyond those of `fs` (unlink operations only
delete entries). -/
def FS.Within (fs' fs : FS) : Prop :=
  ∀ p n, FS.lookup fs' p = some n → FS.lookup fs p = some n

/-- state of one planned entry after Link has handled it: a directory entry
stats as a directory; a file entry's target holds a symlink passing the
expected-symlink test. -/
def entryDone (srcPkg tgtRoot : Fpath) (fs : FS) (e : PathEntry) : Prop :=
  if e.isDir then
    statFollow fs statFuel (tgtRoot ++ e.rel) = some Node.dir
  else
    ∃ lt, FS.lookup fs (tgtRoot ++ e.rel) = some (Node.symlink lt) ∧
      linkMatches (srcPkg ++ e.rel) (tgtRoot ++ e.rel) lt = true

/-- no file entry's relative path is a prefix of another entry's relative
path (file nodes are leaves of the walk, so this holds for every plan of a
well-formed tree). -/
def sepEntries (es : List PathEntry) : Prop :=
  es.Pairwise (fun a b =>
    (a.isDir = false → isPre a.rel b.rel = false) ∧
    (b.isDir = false → isPre b.rel a.rel = false))

/-! Basic lemmas about paths. -/

theorem cleanAbsAux_of_clean (p : List String) (h : cleanPathB p = true) :
    ∀ acc, cleanAbsAux acc p = acc.reverse ++ p := by
  induction p with
  | nil => intro acc; simp [cleanAbsAux]
  | cons c cs ih =>
    intro acc
    simp only [cleanPathB, List.all_cons, Bool.and_eq_true] at h
    obtain ⟨hc, hcs⟩ := h
    simp only [goodName, Bool.and_eq_true, Bool.not_eq_true', beq_eq_false_iff_ne,
      ne_eq] at hc
    rw [cleanAbsAux, if_neg (by tauto), if_neg (by tauto), ih hcs]
    simp

theorem cleanAbs_of_clean (p : List String) (h : cleanPathB p = true) :
    cleanAbs p = p := by
  simpa using cleanAbsAux_of_clean p h []

theorem cleanPathB_cleanAbsAux (p : List String) :
    ∀ acc, cleanPathB acc = true → cleanPathB (cleanAbsAux acc p) = true := by
  induction p with
  | nil =>
    intro acc hacc
    simpa [cleanAbsAux, cleanPathB, List.all_reverse] using hacc
  | cons c cs ih =>
    intro acc hacc
    rw [cleanAbsAux]
    by_cases h1 : c = "." ∨ c = ""
    · rw [if_pos h1]; exact ih acc hacc
    · rw [if_neg h1]
      by_cases h2 : c = ".."
      · rw [if_pos h2]
        refine ih acc.tail ?_
        cases acc with
        | nil => simp [cleanPathB]
        | cons a as =>
          simp only [cleanPathB, List.all_cons, Bool.and_eq_true] at hacc
          simpa [cleanPathB] using hacc.2
      · rw [if_neg h2]
        refine ih (c :: acc) ?_
        push_neg at h1
        simp [cleanPathB, goodName, h1.1, h1.2, h2] at hacc ⊢
        exact hacc

theorem cleanPathB_cleanAbs (p : List String) :
    cleanPathB (cleanAbs p) = true :=
  cleanPathB_cleanAbsAux p [] (by simp [cleanPathB])

theorem cleanAbs_idem (p : List String) : cleanAbs (cleanAbs p) = cleanAbs p :=
  cleanAbs_of_clean _ (cleanPathB_cleanAbs p)

theorem isPre_iff (a : Fpath) : ∀ b, isPre a b = true ↔ ∃ s, b = a ++ s := by
  induction a with
  | nil => intro b; simp [isPre]
  | cons x xs ih =>
    intro b
    cases b with
    | nil => simp [isPre]
    | cons y ys =>
      simp only [isPre, Bool.and_eq_true, beq_iff_eq, ih ys]
      constructor
      · rintro ⟨rfl, s, rfl⟩; exact ⟨s, rfl⟩
      · rintro ⟨s, hs⟩
        injection hs with h1 h2
        exact ⟨h1.symm, s, h2⟩

theorem isPre_refl (a : Fpath) : isPre a a = true := by
  rw [isPre_iff]; exact ⟨[], by simp⟩

theorem isPre_append (a s : Fpath) : isPre a (a ++ s) = true := by
  rw [isPre_iff]; exact ⟨s, rfl⟩

theorem isPre_trans {a b c : Fpath} (h1 : isPre a b = true)
    (h2 : isPre b c = true) : isPre a c = true := by
  rw [isPre_iff] at h1 h2 ⊢
  obtain ⟨s, rfl⟩ := h1
  obtain ⟨t, rfl⟩ := h2
  exact ⟨s ++ t, by simp⟩

theorem isPre_extend {a b : Fpath} (s : Fpath) (h : isPre a b = true) :
    isPre a (b ++ s) = true :=
  isPre_trans h (isPre_append b s)

theorem isPre_cancel (x a b : Fpath) :
    isPre (x ++ a) (x ++ b) = isPre a b := by
  induction x with
  | nil => simp
  | cons c cs ih => simp [isPre, ih]

theorem isPre_length {a b : Fpath} (h : isPre a b = true) :
    a.length ≤ b.length := by
  rw [isPre_iff] at h
  obtain ⟨s, rfl⟩ := h
  simp

theorem isPre_antisymm {a b : Fpath} (h1 : isPre a b = true)
    (h2 : isPre b a = true) : a = b := by
  rw [isPre_iff] at h1 h2
  obtain ⟨s, rfl⟩ := h1
  obtain ⟨t, ht⟩ := h2
  have hlen := congrArg List.length ht
  simp only [List.length_append] at hlen
  have hs : s = [] := List.length_eq_zero.mp (by omega)
  simp [hs]

theorem isPre_dropLast (b : Fpath) (hb : b ≠ []) :
    isPre b.dropLast b = true := by
  rw [isPre_iff]
  exact ⟨[b.getLast hb], (List.dropLast_append_getLast hb).symm⟩

theorem isPre_of_dropLast {a b : Fpath} (h : isPre a b.dropLast = true) :
    isPre a b = true := by
  cases b with
  | nil => simpa using h
  | cons x xs => exact isPre_trans h (isPre_dropLast _ (by simp))

theorem isPre_branch {r p q : Fpath} {x y : String}
    (hx : isPre (r ++ [x]) p = true) (hy : isPre (r ++ [y]) q = true)
    (hxy : x ≠ y) : isPre p q = false := by
  by_contra hpq
  rw [Bool.not_eq_false] at hpq
  have h1 : isPre (r ++ [x]) q = true := isPre_trans hx hpq
  rw [isPre_iff] at h1 hy
  obtain ⟨s, hs⟩ := h1
  obtain ⟨t, ht⟩ := hy
  rw [hs, List.append_assoc r [x] s, List.append_assoc r [y] t] at ht
  have h2 := List.append_cancel_left ht
  simp only [List.cons_append, List.nil_append] at h2
  injection h2 with h3 _
  exact hxy h3

/-! Basic lemmas about the filesystem map. -/

theorem FS.lookup_cons (r : Fpath) (n : Node) (rest : FS) (q : Fpath) :
    FS.lookup ((r, n) :: rest) q = if r = q then some n else FS.lookup rest q :=
  rfl

theorem FS.lookup_erase (fs : FS) (p q : Fpath) :
    FS.lookup (FS.erase fs p) q = if q = p then none else FS.lookup fs q := by
  induction fs with
  | nil => simp [FS.erase, FS.lookup]
  | cons e rest ih =>
    obtain ⟨r, n⟩ := e
    simp only [FS.erase, List.filter_cons] at ih ⊢
    by_cases hrp : r = p
    · subst hrp
      rw [if_neg (by simp), ih]
      by_cases hqp : q = r
      · simp [hqp]
      · rw [if_neg hqp, if_neg hqp, FS.lookup_cons,
          if_neg (fun h => hqp h.symm)]
    · rw [if_pos (by simp [hrp]), FS.lookup_cons]
      by_cases hrq : r = q
      · subst hrq
        rw [if_pos rfl, if_neg hrp, FS.lookup_cons, if_pos rfl]
      · rw [if_neg hrq, ih, FS.lookup_cons, if_neg hrq]

theorem FS.lookup_set (fs : FS) (p : Fpath) (n : Node) (q : Fpath) :
    FS.lookup (FS.set fs p n) q = if q = p then some n else FS.lookup fs q := by
  by_cases hqp : q = p
  · subst hqp; simp [FS.set, FS.lookup]
  · simp [FS.set, FS.lookup, hqp, FS.lookup_erase, Ne.symm hqp]

theorem FS.lookup_mem {fs : FS} {q : Fpath} {n : Node}
    (h : FS.lookup fs q = some n) : (q, n) ∈ fs := by
  induction fs with
  | nil => simp [FS.lookup] at h
  | cons e rest ih =>
    obtain ⟨r, m⟩ := e
    rw [FS.lookup_cons] at h
    by_cases hrq : r = q
    · subst hrq
      rw [if_pos rfl] at h
      injection h with h'
      subst h'
      exact List.mem_cons_self _ _
    · rw [if_neg hrq] at h
      exact List.mem_cons_of_mem _ (ih h)

theorem FS.mem_lookup {fs : FS} {q : Fpath} {n : Node} (h : (q, n) ∈ fs) :
    ∃ m, FS.lookup fs q = some m := by
  induction fs with
  | nil => simp at h
  | cons e rest ih =>
    obtain ⟨r, m⟩ := e
    rw [FS.lookup_cons]
    by_cases hrq : r = q
    · exact ⟨m, by rw [if_pos hrq]⟩
    · rw [if_neg hrq]
      rcases List.mem_cons.mp h with h1 | h2
      · exfalso
        injection h1 with h1a h1b
        exact hrq h1a.symm
      · exact ih h2

theorem FS.hasEntryUnder_false {fs : FS} {p : Fpath}
    (h : FS.hasEntryUnder fs p = false) :
    ∀ q, isPre p q = true → q ≠ p → FS.lookup fs q = none := by
  intro q hpre hne
  cases hl : FS.lookup fs q with
  | none => rfl
  | some n =>
    exfalso
    have hmem := FS.lookup_mem hl
    have htrue : FS.hasEntryUnder fs p = true := by
      unfold FS.hasEntryUnder
      rw [List.any_eq_true]
      exact ⟨(q, n), hmem, by simp [hpre, hne]⟩
    rw [h] at htrue
    exact Bool.false_ne_true htrue

/-! Monotonicity machinery: Link only adds entries, Unlink only deletes. -/

theorem fsExtends_refl (fs : FS) : FS.Extends fs fs := fun _ _ h => h

theorem fsExtends_trans {a b c : FS} (h1 : FS.Extends b a)
    (h2 : FS.Extends c b) : FS.Extends c a :=
  fun p n h => h2 p n (h1 p n h)

theorem fsExtends_set {fs : FS} {p : Fpath} (n : Node)
    (h : FS.lookup fs p = none) : FS.Extends (FS.set fs p n) fs := by
  intro q m hq
  rw [FS.lookup_set]
  by_cases hqp : q = p
  · subst hqp; rw [h] at hq; cases hq
  · rw [if_neg hqp]; exact hq

theorem fsExtends_none {fs fs' : FS} (h : FS.Extends fs' fs) {q : Fpath}
    (hq : FS.lookup fs' q = none) : FS.lookup fs q = none := by
  cases hl : FS.lookup fs q with
  | none => rfl
  | some v => rw [h q v hl] at hq; cases hq

theorem fsWithin_refl (fs : FS) : FS.Within fs fs := fun _ _ h => h

theorem fsWithin_trans {a b c : FS} (h1 : FS.Within b a)
    (h2 : FS.Within c b) : FS.Within c a :=
  fun p n h => h1 p n (h2 p n h)

theorem fsWithin_erase (fs : FS) (p : Fpath) :
    FS.Within (FS.erase fs p) fs := by
  intro q m hq
  rw [FS.lookup_erase] at hq
  by_cases hqp : q = p
  · rw [if_pos hqp] at hq; cases hq
  · rwa [if_neg hqp] at hq

theorem statFollow_mono {fs fs' : FS} (hx : FS.Extends fs' fs) :
    ∀ fuel p n, statFollow fs fuel p = some n →
      statFollow fs' fuel p = some n := by
  intro fuel
  induction fuel with
  | zero => intro p n h; simp [statFollow] at h
  | succ k ih =>
    intro p n h
    rw [statFollow] at h ⊢
    cases hl : FS.lookup fs p with
    | none => rw [hl] at h; cases h
    | some v =>
      rw [hl] at h
      rw [hx p v hl]
      cases v with
      | symlink d => exact ih _ _ h
      | file c => exact h
      | dir => exact h

theorem statFollow_lookup_dir {fs : FS} {p : Fpath}
    (h : FS.lookup fs p = some Node.dir) :
    statFollow fs statFuel p = some Node.dir := by
  show statFollow fs (39 + 1) p = some Node.dir
  rw [statFollow, h]

theorem mkdirAllAux_stat_some (fs : FS) (fuel : Nat) (p : Fpath) (v : Node)
    (h : statFollow fs statFuel p = some v) :
    mkdirAllAux fs (fuel + 1) p = (fs, v == Node.dir) := by
  cases v <;> simp [mkdirAllAux, h]

theorem mkdirAllAux_none_nil (fs : FS) (fuel : Nat)
    (h : statFollow fs statFuel [] = none) :
    mkdirAllAux fs (fuel + 1) [] = (fs, true) := by
  simp [mkdirAllAux, h]

theorem mkdirAllAux_none_cons (fs : FS) (fuel : Nat) (a : String)
    (as : List String) (fs1 : FS) (b : Bool)
    (h : statFollow fs statFuel (a :: as) = none)
    (hrec : mkdirAllAux fs fuel (a :: as).dropLast = (fs1, b)) :
    mkdirAllAux fs (fuel + 1) (a :: as) =
      if b then
        match FS.lookup fs1 (a :: as) with
        | some Node.dir => (fs1, true)
        | some _ => (fs1, false)
        | none => (FS.set fs1 (a :: as) Node.dir, true)
      else (fs1, false) := by
  cases b <;> simp [mkdirAllAux, h, hrec]

/-- worker lemma for `mkdirAll_spec`, by induction on the fuel. -/
theorem mkdirAllAux_spec :
    ∀ (fuel : Nat) (p : Fpath) (fs : FS), p.length < fuel →
    FS.Extends (mkdirAllAux fs fuel p).1 fs ∧
    (∀ q, FS.lookup (mkdirAllAux fs fuel p).1 q ≠ FS.lookup fs q →
      FS.lookup fs q = none ∧
      FS.lookup (mkdirAllAux fs fuel p).1 q = some Node.dir ∧
      isPre q p = true) ∧
    ((mkdirAllAux fs fuel p).2 = true → p ≠ [] →
      statFollow (mkdirAllAux fs fuel p).1 statFuel p = some Node.dir) := by
  intro fuel
  induction fuel with
  | zero => intro p fs h; omega
  | succ k ih =>
    intro p fs h
    cases hstat : statFollow fs statFuel p with
    | some v =>
      rw [mkdirAllAux_stat_some fs k p v hstat]
      refine ⟨fsExtends_refl fs, fun q hq => absurd rfl hq, fun hb _ => ?_⟩
      cases v with
      | dir => exact hstat
      | file c => cases hb
      | symlink d => cases hb
    | none =>
      cases p with
      | nil =>
        rw [mkdirAllAux_none_nil fs k hstat]
        exact ⟨fsExtends_refl fs, fun q hq => absurd rfl hq,
          fun _ h' => absurd rfl h'⟩
      | cons a as =>
        have hlt : (a :: as).dropLast.length < k := by
          simp only [List.length_dropLast, List.length_cons] at h ⊢
          omega
        have ihd := ih (a :: as).dropLast fs hlt
        cases hrec : mkdirAllAux fs k (a :: as).dropLast with
        | mk fs1 b =>
          rw [hrec] at ihd
          rw [mkdirAllAux_none_cons fs k a as fs1 b hstat hrec]
          cases b with
          | false =>
            rw [if_neg (by simp)]
            refine ⟨ihd.1, ?_, fun h' => by cases h'⟩
            intro q hq
            obtain ⟨h1, h2, h3⟩ := ihd.2.1 q hq
            exact ⟨h1, h2, isPre_of_dropLast h3⟩
          | true =>
            rw [if_pos rfl]
            cases hlook : FS.lookup fs1 (a :: as) with
            | some v =>
              cases v with
              | dir =>
                refine ⟨ihd.1, ?_, fun _ _ => statFollow_lookup_dir hlook⟩
                intro q hq
                obtain ⟨h1, h2, h3⟩ := ihd.2.1 q hq
                exact ⟨h1, h2, isPre_of_dropLast h3⟩
              | file c =>
                refine ⟨ihd.1, ?_, fun h' => by cases h'⟩
                intro q hq
                obtain ⟨h1, h2, h3⟩ := ihd.2.1 q hq
                exact ⟨h1, h2, isPre_of_dropLast h3⟩
              | symlink d =>
                refine ⟨ihd.1, ?_, fun h' => by cases h'⟩
                intro q hq
                obtain ⟨h1, h2, h3⟩ := ihd.2.1 q hq
                exact ⟨h1, h2, isPre_of_dropLast h3⟩
            | none =>
              have hx : FS.Extends (FS.set fs1 (a :: as) Node.dir) fs :=
                fsExtends_trans ihd.1 (fsExtends_set Node.dir hlook)
              refine ⟨hx, ?_, ?_⟩
              · intro q hq
                by_cases hqp : q = a :: as
                · subst hqp
                  refine ⟨fsExtends_none ihd.1 hlook, ?_, isPre_refl _⟩
                  rw [FS.lookup_set, if_pos rfl]
                · rw [FS.lookup_set, if_neg hqp] at hq ⊢
                  obtain ⟨h1, h2, h3⟩ := ihd.2.1 q hq
                  exact ⟨h1, h2, isPre_of_dropLast h3⟩
              · intro _ _
                exact statFollow_lookup_dir
                  (by rw [FS.lookup_set, if_pos rfl])

/-- what os.MkdirAll does to the world: it only adds entries; every change
is a fresh directory on the path's ancestor chain; on success the path
stats as a directory. -/
theorem mkdirAll_spec (fs : FS) (p : Fpath) :
    FS.Extends (mkdirAll fs p).1 fs ∧
    (∀ q, FS.lookup (mkdirAll fs p).1 q ≠ FS.lookup fs q →
      FS.lookup fs q = none ∧ FS.lookup (mkdirAll fs p).1 q = some Node.dir ∧
      isPre q p = true) ∧
    ((mkdirAll fs p).2 = true → p ≠ [] →
      statFollow (mkdirAll fs p).1 statFuel p = some Node.dir) :=
  mkdirAllAux_spec (p.length + 1) p fs (by omega)

/-! Properties of the planned walk of a package. -/

theorem baseName_append (rel : Fpath) (name : String) :
    baseName (rel ++ [name]) = name := by
  simp [baseName]

theorem cleanPathB_append {rel : Fpath} {s : Fpath}
    (h1 : cleanPathB rel = true) (h2 : cleanPathB s = true) :
    cleanPathB (rel ++ s) = true := by
  simp only [cleanPathB, List.all_append, Bool.and_eq_true] at *
  exact ⟨h1, h2⟩

mutual

theorem planNode_shape (gm : GlobMatcher) (pats : List String) (rel : Fpath)
    (name : String) (t : FTree) :
    ∀ e ∈ planNode gm pats rel name t, isPre (rel ++ [name]) e.rel = true := by
  cases t with
  | file c =>
    intro e he
    rw [planNode] at he
    by_cases h1 : name = ".gslk-ignore"
    · rw [if_pos h1] at he; cases he
    · rw [if_neg h1] at he
      by_cases h2 : isIgnored gm pats (rel ++ [name]) = true
      · rw [if_pos h2] at he; cases he
      · rw [if_neg h2] at he
        rcases List.mem_singleton.mp he with rfl
        exact isPre_refl _
  | dir cs =>
    intro e he
    rw [planNode] at he
    by_cases h1 : name = ".gslk-ignore"
    · rw [if_pos h1] at he
      obtain ⟨c, t', _, hc⟩ := planChildren_shape gm pats (rel ++ [name]) cs e he
      exact isPre_trans (isPre_append _ _) hc
    · rw [if_neg h1] at he
      by_cases h2 : isIgnored gm pats (rel ++ [name]) = true
      · rw [if_pos h2] at he; cases he
      · rw [if_neg h2] at he
        rcases List.mem_cons.mp he with rfl | htail
        · exact isPre_refl _
        · obtain ⟨c, t', _, hc⟩ :=
            planChildren_shape gm pats (rel ++ [name]) cs e htail
          exact isPre_trans (isPre_append _ _) hc

theorem planChildren_shape (gm : GlobMatcher) (pats : List String)
    (rel : Fpath) (cs : List (String × FTree)) :
    ∀ e ∈ planChildren gm pats rel cs,
      ∃ c t', (c, t') ∈ cs ∧ isPre (rel ++ [c]) e.rel = true := by
  cases cs with
  | nil => intro e he; rw [planChildren] at he; cases he
  | cons q rest =>
    intro e he
    obtain ⟨name, t⟩ := q
    rw [planChildren] at he
    rcases List.mem_append.mp he with hl | hr
    · exact ⟨name, t, List.mem_cons_self _ _,
        planNode_shape gm pats rel name t e hl⟩
    · obtain ⟨c, t', hmem, hc⟩ := planChildren_shape gm pats rel rest e hr
      exact ⟨c, t', List.mem_cons_of_mem _ hmem, hc⟩

end

mutual

theorem planNode_entries (gm : GlobMatcher) (pats : List String) (rel : Fpath)
    (name : String) (t : FTree) :
    ∀ e ∈ planNode gm pats rel name t,
      baseName e.rel ≠ ".gslk-ignore" ∧ isIgnored gm pats e.rel = false := by
  cases t with
  | file c =>
    intro e he
    rw [planNode] at he
    by_cases h1 : name = ".gslk-ignore"
    · rw [if_pos h1] at he; cases he
    · rw [if_neg h1] at he
      by_cases h2 : isIgnored gm pats (rel ++ [name]) = true
      · rw [if_pos h2] at he; cases he
      · rw [if_neg h2] at he
        rcases List.mem_singleton.mp he with rfl
        rw [Bool.not_eq_true] at h2
        exact ⟨by rw [baseName_append]; exact h1, h2⟩
  | dir cs =>
    intro e he
    rw [planNode] at he
    by_cases h1 : name = ".gslk-ignore"
    · rw [if_pos h1] at he
      exact planChildren_entries gm pats (rel ++ [name]) cs e he
    · rw [if_neg h1] at he
      by_cases h2 : isIgnored gm pats (rel ++ [name]) = true
      · rw [if_pos h2] at he; cases he
      · rw [if_neg h2] at he
        rcases List.mem_cons.mp he with rfl | htail
        · rw [Bool.not_eq_true] at h2
          exact ⟨by rw [baseName_append]; exact h1, h2⟩
        · exact planChildren_entries gm pats (rel ++ [name]) cs e htail

theorem planChildren_entries (gm : GlobMatcher) (pats : List String)
    (rel : Fpath) (cs : List (String × FTree)) :
    ∀ e ∈ planChildren gm pats rel cs,
      baseName e.rel ≠ ".gslk-ignore" ∧ isIgnored gm pats e.rel = false := by
  cases cs with
  | nil => intro e he; rw [planChildren] at he; cases he
  | cons q rest =>
    intro e he
    obtain ⟨name, t⟩ := q
    rw [planChildren] at he
    rcases List.mem_append.mp he with hl | hr
    · exact planNode_entries gm pats rel name t e hl
    · exact planChildren_entries gm pats rel rest e hr

end

theorem sep_of_shapes {rp : Fpath} {a b : PathEntry} {c : String}
    (hb : isPre (rp ++ [c]) b.rel = true)
    (hlen : rp.length = a.rel.length) :
    isPre b.rel a.rel = false := by
  by_contra hpre
  rw [Bool.not_eq_false] at hpre
  have l1 := isPre_length hb
  have l2 := isPre_length hpre
  simp only [List.length_append, List.length_cons, List.length_nil] at l1
  omega

mutual

theorem planNode_wf (gm : GlobMatcher) (pats : List String) (rel : Fpath)
    (name : String) (t : FTree) (hn : goodName name = true)
    (ht : FTree.wfB t = true) (hrel : cleanPathB rel = true) :
    (∀ e ∈ planNode gm pats rel name t, cleanPathB e.rel = true) ∧
    sepEntries (planNode gm pats rel name t) := by
  cases t with
  | file c =>
    rw [planNode]
    by_cases h1 : name = ".gslk-ignore"
    · rw [if_pos h1]
      exact ⟨fun e he => absurd he (List.not_mem_nil e), List.Pairwise.nil⟩
    · rw [if_neg h1]
      by_cases h2 : isIgnored gm pats (rel ++ [name]) = true
      · rw [if_pos h2]
        exact ⟨fun e he => absurd he (List.not_mem_nil e), List.Pairwise.nil⟩
      · rw [if_neg h2]
        constructor
        · intro e he
          rcases List.mem_singleton.mp he with rfl
          exact cleanPathB_append hrel (by simp [cleanPathB, hn])
        · simp [sepEntries]
  | dir cs =>
    rw [FTree.wfB, Bool.and_eq_true] at ht
    obtain ⟨hcs, hnd⟩ := ht
    have hnd' : (cs.map Prod.fst).Nodup := of_decide_eq_true hnd
    have hrel' : cleanPathB (rel ++ [name]) = true :=
      cleanPathB_append hrel (by simp [cleanPathB, hn])
    rw [planNode]
    by_cases h1 : name = ".gslk-ignore"
    · rw [if_pos h1]
      exact planChildren_wf gm pats (rel ++ [name]) cs hcs hnd' hrel'
    · rw [if_neg h1]
      by_cases h2 : isIgnored gm pats (rel ++ [name]) = true
      · rw [if_pos h2]
        exact ⟨fun e he => absurd he (List.not_mem_nil e), List.Pairwise.nil⟩
      · rw [if_neg h2]
        obtain ⟨ihg, ihs⟩ := planChildren_wf gm pats (rel ++ [name]) cs hcs
          hnd' hrel'
        constructor
        · intro e he
          rcases List.mem_cons.mp he with rfl | htail
          · exact hrel'
          · exact ihg e htail
        · refine List.pairwise_cons.mpr ⟨?_, ihs⟩
          intro b hb
          obtain ⟨c, t', _, hbc⟩ :=
            planChildren_shape gm pats (rel ++ [name]) cs b hb
          constructor
          · intro hfalse; simp at hfalse
          · intro _
            exact sep_of_shapes hbc rfl

theorem planChildren_wf (gm : GlobMatcher) (pats : List String) (rel : Fpath)
    (cs : List (String × FTree)) (hcs : FTree.wfChildrenB cs = true)
    (hnd : (cs.map Prod.fst).Nodup) (hrel : cleanPathB rel = true) :
    (∀ e ∈ planChildren gm pats rel cs, cleanPathB e.rel = true) ∧
    sepEntries (planChildren gm pats rel cs) := by
  cases cs with
  | nil =>
    rw [planChildren]
    exact ⟨fun e he => absurd he (List.not_mem_nil e), List.Pairwise.nil⟩
  | cons q rest =>
    obtain ⟨name, t⟩ := q
    rw [FTree.wfChildrenB, Bool.and_eq_true, Bool.and_eq_true] at hcs
    obtain ⟨⟨hn, ht⟩, hrest⟩ := hcs
    rw [List.map_cons, List.nodup_cons] at hnd
    obtain ⟨hnotin, hndrest⟩ := hnd
    obtain ⟨ihg1, ihs1⟩ := planNode_wf gm pats rel name t hn ht hrel
    obtain ⟨ihg2, ihs2⟩ := planChildren_wf gm pats rel rest hrest hndrest hrel
    rw [planChildren]
    constructor
    · intro e he
      rcases List.mem_append.mp he with hl | hr
      · exact ihg1 e hl
      · exact ihg2 e hr
    · refine List.pairwise_append.mpr ⟨ihs1, ihs2, ?_⟩
      intro a ha b hb
      have hsa := planNode_shape gm pats rel name t a ha
      obtain ⟨c, t', hmem, hsb⟩ := planChildren_shape gm pats rel rest b hb
      have hnc : name ≠ c := by
        intro hEq
        subst hEq
        exact hnotin (List.mem_map.mpr ⟨(name, t'), hmem, rfl⟩)
      constructor
      · intro _; exact isPre_branch hsa hsb hnc
      · intro _; exact isPre_branch hsb hsa (Ne.symm hnc)

end

/-- bundled facts about a package plan: every entry has a non-empty relative
path extending some child name, a basename other than the ignore file's, and
is not ignored. -/
theorem planTop_entries (gm : GlobMatcher) (pats : List String) (t : FTree) :
    ∀ e ∈ planTop gm pats t, e.rel ≠ [] ∧
      baseName e.rel ≠ ".gslk-ignore" ∧ isIgnored gm pats e.rel = false := by
  cases t with
  | file c => intro e he; rw [planTop] at he; cases he
  | dir cs =>
    intro e he
    rw [planTop] at he
    obtain ⟨c, t', _, hc⟩ := planChildren_shape gm pats [] cs e he
    have hlen := isPre_length hc
    simp only [List.nil_append, List.length_cons, List.length_nil] at hlen
    have hne : e.rel ≠ [] := by
      intro hEq; rw [hEq] at hlen; simp at hlen
    obtain ⟨hb, hi⟩ := planChildren_entries gm pats [] cs e he
    exact ⟨hne, hb, hi⟩

/-- bundled well-formedness facts about a package plan, for a well-formed
source tree: every entry path is clean and file entries are leaves. -/
theorem planTop_wf (gm : GlobMatcher) (pats : List String) (t : FTree)
    (ht : FTree.wfB t = true) :
    (∀ e ∈ planTop gm pats t, cleanPathB e.rel = true) ∧
    sepEntries (planTop gm pats t) := by
  cases t with
  | file c =>
    rw [planTop]
    exact ⟨fun e he => absurd he (List.not_mem_nil e), List.Pairwise.nil⟩
  | dir cs =>
    rw [FTree.wfB, Bool.and_eq_true] at ht
    rw [planTop]
    exact planChildren_wf gm pats [] cs ht.1 (of_decide_eq_true ht.2)
      (by simp [cleanPathB])

/-! The pruning climb and the unlink pass. -/

theorem removeOp_some {fs : FS} {p : Fpath} {fs' : FS}
    (h : FS.removeOp fs p = some fs') :
    fs' = FS.erase fs p ∧ ∃ v, FS.lookup fs p = some v ∧
      (v = Node.dir → FS.hasEntryUnder fs p = false) := by
  unfold FS.removeOp at h
  cases hl : FS.lookup fs p with
  | none => rw [hl] at h; cases h
  | some v =>
    rw [hl] at h
    cases v with
    | dir =>
      by_cases hu : FS.hasEntryUnder fs p = true
      · rw [if_pos hu] at h; cases h
      · rw [if_neg hu] at h
        injection h with h'
        exact ⟨h'.symm, Node.dir, rfl, fun _ => Bool.not_eq_true _ ▸ hu⟩
    | file c =>
      injection h with h'
      exact ⟨h'.symm, Node.file c, rfl, fun hEq => by cases hEq⟩
    | symlink d =>
      injection h with h'
      exact ⟨h'.symm, Node.symlink d, rfl, fun hEq => by cases hEq⟩

theorem removeEmptyParentsLoop_spec (base : Fpath) :
    ∀ (fuel : Nat) (parent : Fpath) (fs : FS),
    FS.Within (removeEmptyParentsLoop base fuel fs parent) fs ∧
    (∀ q, FS.lookup (removeEmptyParentsLoop base fuel fs parent) q ≠
        FS.lookup fs q →
      FS.lookup (removeEmptyParentsLoop base fuel fs parent) q = none ∧
      isPre base q = true ∧ q ≠ base ∧ q ≠ [] ∧ isPre q parent = true) ∧
    (∀ q, FS.lookup (removeEmptyParentsLoop base fuel fs parent) q ≠
        FS.lookup fs q →
      FS.lookup fs q = some Node.dir →
      ∀ r, isPre q r = true → r ≠ q →
        FS.lookup (removeEmptyParentsLoop base fuel fs parent) r = none) := by
  intro fuel
  induction fuel with
  | zero =>
    intro parent fs
    rw [removeEmptyParentsLoop]
    exact ⟨fsWithin_refl fs, fun q hq => absurd rfl hq,
      fun q hq => absurd rfl hq⟩
  | succ k ih =>
    intro parent fs
    by_cases hstop :
        (parent == base || parent.isEmpty || !isPre base parent) = true
    · have hr : removeEmptyParentsLoop base (k + 1) fs parent = fs := by
        simp only [removeEmptyParentsLoop]
        rw [if_pos hstop]
      rw [hr]
      exact ⟨fsWithin_refl fs, fun q hq => absurd rfl hq,
        fun q hq => absurd rfl hq⟩
    · rw [Bool.not_eq_true, Bool.or_eq_false_iff, Bool.or_eq_false_iff]
        at hstop
      obtain ⟨⟨hb1, hb2⟩, hb3⟩ := hstop
      have hne : parent ≠ base := by simpa using hb1
      have hnil : parent ≠ [] := by simpa using hb2
      have hpre : isPre base parent = true := by simpa using hb3
      cases hop : FS.removeOp fs parent with
      | none =>
        have hr : removeEmptyParentsLoop base (k + 1) fs parent = fs := by
          simp only [removeEmptyParentsLoop]
          rw [if_neg (by simp [hb1, hb2, hb3]), hop]
        rw [hr]
        exact ⟨fsWithin_refl fs, fun q hq => absurd rfl hq,
          fun q hq => absurd rfl hq⟩
      | some fs1 =>
        have hr : removeEmptyParentsLoop base (k + 1) fs parent =
            removeEmptyParentsLoop base k fs1 parent.dropLast := by
          simp only [removeEmptyParentsLoop]
          rw [if_neg (by simp [hb1, hb2, hb3]), hop]
        rw [hr]
        obtain ⟨hers, v, hv, hvdir⟩ := removeOp_some hop
        subst hers
        obtain ⟨ih1, ih2, ih3⟩ := ih parent.dropLast (FS.erase fs parent)
        have hwin : FS.Within
            (removeEmptyParentsLoop base k (FS.erase fs parent)
              parent.dropLast) fs :=
          fsWithin_trans (fsWithin_erase fs parent) ih1
        refine ⟨hwin, ?_, ?_⟩
        · intro q hq
          by_cases hqp : q = parent
          · subst hqp
            have h1 : FS.lookup (FS.erase fs q) q = none := by
              rw [FS.lookup_erase, if_pos rfl]
            have hfin : FS.lookup (removeEmptyParentsLoop base k
                (FS.erase fs q) q.dropLast) q = none := by
              cases hfq : FS.lookup (removeEmptyParentsLoop base k
                  (FS.erase fs q) q.dropLast) q with
              | none => rfl
              | some m => rw [ih1 q m hfq] at h1; cases h1
            exact ⟨hfin, hpre, hne, hnil, isPre_refl _⟩
          · have heq : FS.lookup (FS.erase fs parent) q = FS.lookup fs q := by
              rw [FS.lookup_erase, if_neg hqp]
            rw [← heq] at hq
            obtain ⟨g1, g2, g3, g4, g5⟩ := ih2 q hq
            exact ⟨g1, g2, g3, g4, isPre_of_dropLast g5⟩
        · intro q hq hdir r hqr hrq
          by_cases hqp : q = parent
          · subst hqp
            rw [hv] at hdir
            injection hdir with hdir'
            have hund := FS.hasEntryUnder_false (hvdir hdir') r hqr hrq
            cases hfr : FS.lookup (removeEmptyParentsLoop base k
                (FS.erase fs q) q.dropLast) r with
            | none => rfl
            | some m => rw [hwin r m hfr] at hund; cases hund
          · have heq : FS.lookup (FS.erase fs parent) q = FS.lookup fs q := by
              rw [FS.lookup_erase, if_neg hqp]
            rw [← heq] at hq hdir
            exact ih3 q hq hdir r hqr hrq

/-- what removeEmptyParents does to the world: it only deletes entries, every
deleted path is a strict descendant of the base directory lying on the
ancestor chain of the removed link, and a deleted directory had no remaining
descendants when removed. -/
theorem removeEmptyParents_spec (fs : FS) (tp : Fpath) (base : Fpath) :
    FS.Within (removeEmptyParents fs tp base) fs ∧
    (∀ q, FS.lookup (removeEmptyParents fs tp base) q ≠ FS.lookup fs q →
      FS.lookup (removeEmptyParents fs tp base) q = none ∧
      isPre (cleanAbs base) q = true ∧ q ≠ cleanAbs base ∧ q ≠ [] ∧
      isPre q tp.dropLast = true) ∧
    (∀ q, FS.lookup (removeEmptyParents fs tp base) q ≠ FS.lookup fs q →
      FS.lookup fs q = some Node.dir →
      ∀ r, isPre q r = true → r ≠ q →
        FS.lookup (removeEmptyParents fs tp base) r = none) :=
  removeEmptyParentsLoop_spec (cleanAbs base) (tp.dropLast.length + 1)
    tp.dropLast fs

theorem unlinkEntry_skip (cwd s t : Fpath) (fs : FS) (e : PathEntry)
    (h : ∀ lt, FS.lookup fs (t ++ e.rel) = some (Node.symlink lt) →
      (absPath cwd lt == cleanAbs (s ++ e.rel)) = false) :
    unlinkEntry cwd s t fs e = fs := by
  show (match FS.lookup fs (t ++ e.rel) with
    | some (Node.symlink lt) =>
      if (absPath cwd lt == cleanAbs (s ++ e.rel)) = true then
        removeEmptyParents (FS.erase fs (t ++ e.rel)) (t ++ e.rel) t
      else fs
    | _ => fs) = fs
  cases hl : FS.lookup fs (t ++ e.rel) with
  | none => rfl
  | some n =>
    cases n with
    | file c => rfl
    | dir => rfl
    | symlink lt => simp [h lt hl]

theorem unlinkEntry_remove (cwd s t : Fpath) (fs : FS) (e : PathEntry)
    {lt : SPath} (hl : FS.lookup fs (t ++ e.rel) = some (Node.symlink lt))
    (hm : (absPath cwd lt == cleanAbs (s ++ e.rel)) = true) :
    unlinkEntry cwd s t fs e =
      removeEmptyParents (FS.erase fs (t ++ e.rel)) (t ++ e.rel) t := by
  show (match FS.lookup fs (t ++ e.rel) with
    | some (Node.symlink lt) =>
      if (absPath cwd lt == cleanAbs (s ++ e.rel)) = true then
        removeEmptyParents (FS.erase fs (t ++ e.rel)) (t ++ e.rel) t
      else fs
    | _ => fs) =
    removeEmptyParents (FS.erase fs (t ++ e.rel)) (t ++ e.rel) t
  rw [hl]
  simp [hm]

theorem unlinkEntry_spec (cwd s t : Fpath) (fs : FS) (e : PathEntry) :
    FS.Within (unlinkEntry cwd s t fs e) fs ∧
    (∀ q, FS.lookup (unlinkEntry cwd s t fs e) q ≠ FS.lookup fs q →
      FS.lookup (unlinkEntry cwd s t fs e) q = none ∧
      isPre q (t ++ e.rel) = true) := by
  cases hl : FS.lookup fs (t ++ e.rel) with
  | none =>
    rw [unlinkEntry_skip cwd s t fs e (fun lt h => by rw [hl] at h; cases h)]
    exact ⟨fsWithin_refl fs, fun q hq => absurd rfl hq⟩
  | some n =>
    cases n with
    | file c =>
      rw [unlinkEntry_skip cwd s t fs e (fun lt h => by rw [hl] at h; cases h)]
      exact ⟨fsWithin_refl fs, fun q hq => absurd rfl hq⟩
    | dir =>
      rw [unlinkEntry_skip cwd s t fs e (fun lt h => by rw [hl] at h; cases h)]
      exact ⟨fsWithin_refl fs, fun q hq => absurd rfl hq⟩
    | symlink lt =>
      by_cases hm : (absPath cwd lt == cleanAbs (s ++ e.rel)) = true
      · rw [unlinkEntry_remove cwd s t fs e hl hm]
        obtain ⟨r1, r2, _⟩ :=
          removeEmptyParents_spec (FS.erase fs (t ++ e.rel)) (t ++ e.rel) t
        have hwin : FS.Within (removeEmptyParents
            (FS.erase fs (t ++ e.rel)) (t ++ e.rel) t) fs :=
          fsWithin_trans (fsWithin_erase fs (t ++ e.rel)) r1
        refine ⟨hwin, ?_⟩
        intro q hq
        by_cases hqp : q = t ++ e.rel
        · subst hqp
          have h1 : FS.lookup (FS.erase fs (t ++ e.rel)) (t ++ e.rel) =
              none := by
            rw [FS.lookup_erase, if_pos rfl]
          cases hfq : FS.lookup (removeEmptyParents
              (FS.erase fs (t ++ e.rel)) (t ++ e.rel) t) (t ++ e.rel) with
          | none => exact ⟨rfl, isPre_refl _⟩
          | some m => rw [r1 (t ++ e.rel) m hfq] at h1; cases h1
        · have heq : FS.lookup (FS.erase fs (t ++ e.rel)) q =
              FS.lookup fs q := by
            rw [FS.lookup_erase, if_neg hqp]
          rw [← heq] at hq
          obtain ⟨g1, _, _, _, g5⟩ := r2 q hq
          exact ⟨g1, isPre_of_dropLast g5⟩
      · rw [Bool.not_eq_true] at hm
        rw [unlinkEntry_skip cwd s t fs e (fun lt' h => by
          rw [hl] at h
          injection h with h1
          injection h1 with h2
          rw [← h2]
          exact hm)]
        exact ⟨fsWithin_refl fs, fun q hq => absurd rfl hq⟩

theorem unlinkEntries_spec (cwd s t : Fpath) :
    ∀ (es : List PathEntry) (fs : FS),
    FS.Within (unlinkEntries cwd s t fs es) fs ∧
    (∀ q, FS.lookup (unlinkEntries cwd s t fs es) q ≠ FS.lookup fs q →
      FS.lookup (unlinkEntries cwd s t fs es) q = none ∧
      ∃ e ∈ es, isPre q (t ++ e.rel) = true) := by
  intro es
  induction es with
  | nil =>
    intro fs
    rw [unlinkEntries]
    exact ⟨fsWithin_refl fs, fun q hq => absurd rfl hq⟩
  | cons e0 es ih =>
    intro fs
    rw [unlinkEntries]
    obtain ⟨h1, h2⟩ := unlinkEntry_spec cwd s t fs e0
    obtain ⟨ih1, ih2⟩ := ih (unlinkEntry cwd s t fs e0)
    refine ⟨fsWithin_trans h1 ih1, ?_⟩
    intro q hq
    by_cases hmid : FS.lookup (unlinkEntry cwd s t fs e0) q = FS.lookup fs q
    · rw [← hmid] at hq
      obtain ⟨g1, e, he, hp⟩ := ih2 q hq
      exact ⟨g1, e, List.mem_cons_of_mem _ he, hp⟩
    · obtain ⟨g1, g2⟩ := h2 q hmid
      have hfin : FS.lookup (unlinkEntries cwd s t
          (unlinkEntry cwd s t fs e0) es) q = none := by
        cases hfq : FS.lookup (unlinkEntries cwd s t
            (unlinkEntry cwd s t fs e0) es) q with
        | none => rfl
        | some m => rw [ih1 q m hfq] at g1; cases g1
      exact ⟨hfin, e0, List.mem_cons_self _ _, g2⟩

theorem residual_false_mono {cwd s t : Fpath} {fs fs' : FS} {e : PathEntry}
    (hw : FS.Within fs' fs) (hr : residualEntry cwd s t fs e = false) :
    residualEntry cwd s t fs' e = false := by
  unfold residualEntry at hr ⊢
  cases hd : e.isDir with
  | true => simp [hd]
  | false =>
    rw [hd] at hr
    simp only [Bool.not_false, Bool.true_and] at hr ⊢
    cases hl : FS.lookup fs' (t ++ e.rel) with
    | none => rfl
    | some v =>
      rw [hw _ _ hl] at hr
      exact hr

theorem unlinkEntry_clears (cwd s t : Fpath) (fs : FS) (e : PathEntry) :
    residualEntry cwd s t (unlinkEntry cwd s t fs e) e = false := by
  unfold residualEntry
  cases hd : e.isDir with
  | true => simp
  | false =>
    simp only [Bool.not_false, Bool.true_and]
    cases hl : FS.lookup fs (t ++ e.rel) with
    | none =>
      rw [unlinkEntry_skip cwd s t fs e (fun lt h => by rw [hl] at h; cases h),
        hl]
    | some n =>
      cases n with
      | file c =>
        rw [unlinkEntry_skip cwd s t fs e
          (fun lt h => by rw [hl] at h; cases h), hl]
      | dir =>
        rw [unlinkEntry_skip cwd s t fs e
          (fun lt h => by rw [hl] at h; cases h), hl]
      | symlink lt =>
        by_cases hm : (absPath cwd lt == cleanAbs (s ++ e.rel)) = true
        · rw [unlinkEntry_remove cwd s t fs e hl hm]
          obtain ⟨r1, _, _⟩ :=
            removeEmptyParents_spec (FS.erase fs (t ++ e.rel)) (t ++ e.rel) t
          have h1 : FS.lookup (FS.erase fs (t ++ e.rel)) (t ++ e.rel) =
              none := by
            rw [FS.lookup_erase, if_pos rfl]
          cases hfq : FS.lookup (removeEmptyParents
              (FS.erase fs (t ++ e.rel)) (t ++ e.rel) t) (t ++ e.rel) with
          | none => rfl
          | some m => rw [r1 (t ++ e.rel) m hfq] at h1; cases h1
        · rw [Bool.not_eq_true] at hm
          rw [unlinkEntry_skip cwd s t fs e (fun lt' h => by
            rw [hl] at h
            injection h with h1
            injection h1 with h2
            rw [← h2]
            exact hm), hl]
          exact hm

theorem unlinkEntries_clears (cwd s t : Fpath) :
    ∀ (es : List PathEntry) (fs : FS), ∀ e ∈ es,
      residualEntry cwd s t (unlinkEntries cwd s t fs es) e = false := by
  intro es
  induction es with
  | nil => intro fs e he; cases he
  | cons e0 es ih =>
    intro fs e he
    rw [unlinkEntries]
    rcases List.mem_cons.mp he with rfl | htail
    · exact residual_false_mono
        (unlinkEntries_spec cwd s t es (unlinkEntry cwd s t fs e)).1
        (unlinkEntry_clears cwd s t fs e)
    · exact ih (unlinkEntry cwd s t fs e0) e htail

/-- in the sequential model every matching link of a separated plan whose
file targets hold the links Link creates is removed by the unlink pass. -/
theorem unlinkEntries_removes (cwd s t : Fpath) :
    ∀ (es : List PathEntry) (fs : FS), sepEntries es →
    (∀ e ∈ es, e.isDir = false →
      FS.lookup fs (t ++ e.rel) =
        some (Node.symlink (SPath.mk true (cleanAbs (s ++ e.rel))))) →
    ∀ e ∈ es, e.isDir = false →
      FS.lookup (unlinkEntries cwd s t fs es) (t ++ e.rel) = none := by
  intro es
  induction es with
  | nil => intro fs _ _ e he; cases he
  | cons e0 es ih =>
    intro fs hsep hl e he hd
    unfold sepEntries at hsep
    rw [List.pairwise_cons] at hsep
    rw [unlinkEntries]
    rcases List.mem_cons.mp he with rfl | htail
    · have hle := hl e (List.mem_cons_self _ _) hd
      have hm : (absPath cwd (SPath.mk true (cleanAbs (s ++ e.rel))) ==
          cleanAbs (s ++ e.rel)) = true := by
        simp [absPath, cleanAbs_idem]
      rw [unlinkEntry_remove cwd s t fs e hle hm]
      obtain ⟨r1, _, _⟩ :=
        removeEmptyParents_spec (FS.erase fs (t ++ e.rel)) (t ++ e.rel) t
      have h1 : FS.lookup (removeEmptyParents (FS.erase fs (t ++ e.rel))
          (t ++ e.rel) t) (t ++ e.rel) = none := by
        have h0 : FS.lookup (FS.erase fs (t ++ e.rel)) (t ++ e.rel) =
            none := by
          rw [FS.lookup_erase, if_pos rfl]
        cases hfq : FS.lookup (removeEmptyParents (FS.erase fs (t ++ e.rel))
            (t ++ e.rel) t) (t ++ e.rel) with
        | none => rfl
        | some m => rw [r1 (t ++ e.rel) m hfq] at h0; cases h0
      cases hfq : FS.lookup (unlinkEntries cwd s t
          (removeEmptyParents (FS.erase fs (t ++ e.rel)) (t ++ e.rel) t) es)
          (t ++ e.rel) with
      | none => rfl
      | some m =>
        rw [(unlinkEntries_spec cwd s t es _).1 _ m hfq] at h1
        cases h1
    · refine ih (unlinkEntry cwd s t fs e0) hsep.2 ?_ e htail hd
      intro e' he' hd'
      have hnp : isPre e'.rel e0.rel = false := (hsep.1 e' he').2 hd'
      by_cases hch : FS.lookup (unlinkEntry cwd s t fs e0) (t ++ e'.rel) =
          FS.lookup fs (t ++ e'.rel)
      · rw [hch]
        exact hl e' (List.mem_cons_of_mem _ he') hd'
      · obtain ⟨_, g2⟩ := (unlinkEntry_spec cwd s t fs e0).2 _ hch
        rw [isPre_cancel] at g2
        rw [hnp] at g2
        cases g2

/-! The link pass. -/

theorem isPre_dropLast_self_false {p : Fpath} (hp : p ≠ []) :
    isPre p p.dropLast = false := by
  by_contra h
  rw [Bool.not_eq_false] at h
  have h1 := isPre_length h
  rw [List.length_dropLast] at h1
  have h2 : 0 < p.length := List.length_pos.mpr hp
  omega

theorem append_ne_nil_of_right {t r : Fpath} (hr : r ≠ []) : t ++ r ≠ [] := by
  intro h
  rcases List.append_eq_nil.mp h with ⟨_, h2⟩
  exact hr h2

theorem linkEntry_dir (s t : Fpath) (fs : FS) (e : PathEntry)
    (hd : e.isDir = true) :
    linkEntry s t fs e =
      match mkdirAll fs (t ++ e.rel) with
      | (fs1, true) => (fs1, none)
      | (fs1, false) => (fs1, some (GErr.mkdirFailed (t ++ e.rel))) := by
  unfold linkEntry
  rw [hd, if_pos rfl]

theorem linkEntry_file_symlink (s t : Fpath) (fs : FS) (e : PathEntry)
    (lt : SPath) (hd : e.isDir = false)
    (hl : FS.lookup fs (t ++ e.rel) = some (Node.symlink lt)) :
    linkEntry s t fs e =
      if linkMatches (s ++ e.rel) (t ++ e.rel) lt = true then (fs, none)
      else (fs, some (GErr.conflict (t ++ e.rel))) := by
  unfold linkEntry
  rw [hd, if_neg Bool.false_ne_true, hl]

theorem linkEntry_file_other (s t : Fpath) (fs : FS) (e : PathEntry)
    (n : Node) (hd : e.isDir = false)
    (hl : FS.lookup fs (t ++ e.rel) = some n)
    (hn : ∀ lt, n ≠ Node.symlink lt) :
    linkEntry s t fs e = (fs, some (GErr.conflict (t ++ e.rel))) := by
  unfold linkEntry
  rw [hd, if_neg Bool.false_ne_true, hl]
  cases n with
  | file c => rfl
  | dir => rfl
  | symlink lt => exact absurd rfl (hn lt)

theorem linkEntry_file_none (s t : Fpath) (fs : FS) (e : PathEntry)
    (hd : e.isDir = false) (hl : FS.lookup fs (t ++ e.rel) = none) :
    linkEntry s t fs e =
      match mkdirAll fs (t ++ e.rel).dropLast with
      | (fs1, false) =>
        (fs1, some (GErr.mkdirFailed (t ++ e.rel).dropLast))
      | (fs1, true) =>
        (FS.set fs1 (t ++ e.rel)
          (Node.symlink (SPath.mk true (cleanAbs (s ++ e.rel)))), none) := by
  unfold linkEntry
  rw [hd, if_neg Bool.false_ne_true, hl]

theorem linkEntry_spec (s t : Fpath) (fs : FS) (e : PathEntry)
    (hrel : e.rel ≠ []) :
    FS.Extends (linkEntry s t fs e).1 fs ∧
    (∀ q, FS.lookup (linkEntry s t fs e).1 q ≠ FS.lookup fs q →
      FS.lookup fs q = none ∧ isPre q (t ++ e.rel) = true ∧
      (FS.lookup (linkEntry s t fs e).1 q = some Node.dir ∨
       (e.isDir = false ∧ q = t ++ e.rel ∧
        FS.lookup (linkEntry s t fs e).1 q =
          some (Node.symlink (SPath.mk true (cleanAbs (s ++ e.rel))))))) := by
  have htp : t ++ e.rel ≠ [] := append_ne_nil_of_right hrel
  cases hd : e.isDir with
  | true =>
    rw [linkEntry_dir s t fs e hd]
    cases hM : mkdirAll fs (t ++ e.rel) with
    | mk fs1 b =>
      obtain ⟨m1, m2, _⟩ := mkdirAll_spec fs (t ++ e.rel)
      rw [hM] at m1 m2
      cases b with
      | true =>
        refine ⟨m1, ?_⟩
        intro q hq
        obtain ⟨g1, g2, g3⟩ := m2 q hq
        exact ⟨g1, g3, Or.inl g2⟩
      | false =>
        refine ⟨m1, ?_⟩
        intro q hq
        obtain ⟨g1, g2, g3⟩ := m2 q hq
        exact ⟨g1, g3, Or.inl g2⟩
  | false =>
    cases hl : FS.lookup fs (t ++ e.rel) with
    | some n =>
      cases n with
      | symlink lt =>
        rw [linkEntry_file_symlink s t fs e lt hd hl]
        by_cases hm : linkMatches (s ++ e.rel) (t ++ e.rel) lt = true
        · rw [if_pos hm]
          exact ⟨fsExtends_refl fs, fun q hq => absurd rfl hq⟩
        · rw [if_neg hm]
          exact ⟨fsExtends_refl fs, fun q hq => absurd rfl hq⟩
      | file c =>
        rw [linkEntry_file_other s t fs e (Node.file c) hd hl
          (fun lt h => by cases h)]
        exact ⟨fsExtends_refl fs, fun q hq => absurd rfl hq⟩
      | dir =>
        rw [linkEntry_file_other s t fs e Node.dir hd hl
          (fun lt h => by cases h)]
        exact ⟨fsExtends_refl fs, fun q hq => absurd rfl hq⟩
    | none =>
      rw [linkEntry_file_none s t fs e hd hl]
      cases hM : mkdirAll fs (t ++ e.rel).dropLast with
      | mk fs1 b =>
        obtain ⟨m1, m2, _⟩ := mkdirAll_spec fs (t ++ e.rel).dropLast
        rw [hM] at m1 m2
        cases b with
        | false =>
          refine ⟨m1, ?_⟩
          intro q hq
          obtain ⟨g1, g2, g3⟩ := m2 q hq
          exact ⟨g1, isPre_of_dropLast g3, Or.inl g2⟩
        | true =>
          have hfs1 : FS.lookup fs1 (t ++ e.rel) = none := by
            cases hc : FS.lookup fs1 (t ++ e.rel) with
            | none => rfl
            | some v =>
              exfalso
              have hch : FS.lookup fs1 (t ++ e.rel) ≠
                  FS.lookup fs (t ++ e.rel) := by
                rw [hc, hl]; exact fun h => by cases h
              obtain ⟨_, _, g3⟩ := m2 _ hch
              rw [isPre_dropLast_self_false htp] at g3
              cases g3
          refine ⟨fsExtends_trans m1 (fsExtends_set _ hfs1), ?_⟩
          intro q hq
          by_cases hqp : q = t ++ e.rel
          · subst hqp
            refine ⟨hl, isPre_refl _, Or.inr ⟨rfl, rfl, ?_⟩⟩
            rw [FS.lookup_set, if_pos rfl]
          · rw [FS.lookup_set, if_neg hqp] at hq ⊢
            obtain ⟨g1, g2, g3⟩ := m2 q hq
            exact ⟨g1, isPre_of_dropLast g3, Or.inl g2⟩

theorem linkEntry_done (s t : Fpath) (fs : FS) (e : PathEntry)
    (hclean : cleanPathB (s ++ e.rel) = true) (hrel : e.rel ≠ [])
    (h : (linkEntry s t fs e).2 = none) :
    entryDone s t (linkEntry s t fs e).1 e := by
  have htp : t ++ e.rel ≠ [] := append_ne_nil_of_right hrel
  unfold entryDone
  cases hd : e.isDir with
  | true =>
    rw [linkEntry_dir s t fs e hd] at h ⊢
    rw [if_pos rfl]
    cases hM : mkdirAll fs (t ++ e.rel) with
    | mk fs1 b =>
      obtain ⟨_, _, m3⟩ := mkdirAll_spec fs (t ++ e.rel)
      rw [hM] at m3 h
      cases b with
      | false => cases h
      | true => exact m3 rfl htp
  | false =>
    rw [if_neg Bool.false_ne_true]
    cases hl : FS.lookup fs (t ++ e.rel) with
    | some n =>
      cases n with
      | symlink lt =>
        rw [linkEntry_file_symlink s t fs e lt hd hl] at h ⊢
        by_cases hm : linkMatches (s ++ e.rel) (t ++ e.rel) lt = true
        · rw [if_pos hm]
          exact ⟨lt, hl, hm⟩
        · rw [if_neg hm] at h; cases h
      | file c =>
        rw [linkEntry_file_other s t fs e (Node.file c) hd hl
          (fun lt h => by cases h)] at h
        cases h
      | dir =>
        rw [linkEntry_file_other s t fs e Node.dir hd hl
          (fun lt h => by cases h)] at h
        cases h
    | none =>
      rw [linkEntry_file_none s t fs e hd hl] at h ⊢
      cases hM : mkdirAll fs (t ++ e.rel).dropLast with
      | mk fs1 b =>
        rw [hM] at h
        cases b with
        | false => cases h
        | true =>
          refine ⟨SPath.mk true (cleanAbs (s ++ e.rel)), ?_, ?_⟩
          · rw [FS.lookup_set, if_pos rfl]
          · unfold linkMatches
            rw [cleanAbs_of_clean _ hclean]
            simp

theorem linkEntry_of_done (s t : Fpath) (fs : FS) (e : PathEntry)
    (h : entryDone s t fs e) : linkEntry s t fs e = (fs, none) := by
  unfold entryDone at h
  cases hd : e.isDir with
  | true =>
    rw [hd, if_pos rfl] at h
    rw [linkEntry_dir s t fs e hd]
    have hM : mkdirAll fs (t ++ e.rel) = (fs, true) := by
      unfold mkdirAll
      rw [mkdirAllAux_stat_some fs _ _ Node.dir h]
      rfl
    rw [hM]
  | false =>
    rw [hd, if_neg Bool.false_ne_true] at h
    obtain ⟨lt, hlook, hmatch⟩ := h
    rw [linkEntry_file_symlink s t fs e lt hd hlook, if_pos hmatch]

theorem entryDone_mono {fs fs' : FS} (hx : FS.Extends fs' fs)
    {s t : Fpath} {e : PathEntry} (h : entryDone s t fs e) :
    entryDone s t fs' e := by
  unfold entryDone at h ⊢
  cases hd : e.isDir with
  | true =>
    rw [hd, if_pos rfl] at h
    rw [if_pos rfl]
    exact statFollow_mono hx _ _ _ h
  | false =>
    rw [hd, if_neg Bool.false_ne_true] at h
    rw [if_neg Bool.false_ne_true]
    obtain ⟨lt, hlook, hmatch⟩ := h
    exact ⟨lt, hx _ _ hlook, hmatch⟩

theorem linkEntries_spec (s t : Fpath) :
    ∀ (es : List PathEntry) (fs : FS), (∀ e ∈ es, e.rel ≠ []) →
    FS.Extends (linkEntries s t fs es).1 fs ∧
    (∀ q, FS.lookup (linkEntries s t fs es).1 q ≠ FS.lookup fs q →
      FS.lookup fs q = none ∧ (∃ e ∈ es, isPre q (t ++ e.rel) = true) ∧
      (FS.lookup (linkEntries s t fs es).1 q = some Node.dir ∨
       ∃ e ∈ es, e.isDir = false ∧ q = t ++ e.rel ∧
         FS.lookup (linkEntries s t fs es).1 q =
           some (Node.symlink (SPath.mk true (cleanAbs (s ++ e.rel)))))) := by
  intro es
  induction es with
  | nil =>
    intro fs _
    rw [linkEntries]
    exact ⟨fsExtends_refl fs, fun q hq => absurd rfl hq⟩
  | cons e0 es ih =>
    intro fs hrel
    rw [linkEntries]
    obtain ⟨h1, h2⟩ := linkEntry_spec s t fs e0 (hrel e0 (List.mem_cons_self _ _))
    cases hE : linkEntry s t fs e0 with
    | mk fs1 r =>
      rw [hE] at h1 h2
      cases r with
      | some err =>
        refine ⟨h1, ?_⟩
        intro q hq
        obtain ⟨g1, g2, g3⟩ := h2 q hq
        refine ⟨g1, ⟨e0, List.mem_cons_self _ _, g2⟩, ?_⟩
        rcases g3 with hdir | ⟨hf, hqe, hlk⟩
        · exact Or.inl hdir
        · exact Or.inr ⟨e0, List.mem_cons_self _ _, hf, hqe, hlk⟩
      | none =>
        obtain ⟨ih1, ih2⟩ := ih fs1
          (fun e he => hrel e (List.mem_cons_of_mem _ he))
        refine ⟨fsExtends_trans h1 ih1, ?_⟩
        intro q hq
        by_cases hmid : FS.lookup fs1 q = FS.lookup fs q
        · rw [← hmid] at hq
          obtain ⟨g1, ⟨e, he, hp⟩, g3⟩ := ih2 q hq
          refine ⟨hmid ▸ g1, ⟨e, List.mem_cons_of_mem _ he, hp⟩, ?_⟩
          rcases g3 with hdir | ⟨e', he', hf, hqe, hlk⟩
          · exact Or.inl hdir
          · exact Or.inr ⟨e', List.mem_cons_of_mem _ he', hf, hqe, hlk⟩
        · obtain ⟨g1, g2, g3⟩ := h2 q hmid
          refine ⟨g1, ⟨e0, List.mem_cons_self _ _, g2⟩, ?_⟩
          by_cases hrec : FS.lookup (linkEntries s t fs1 es).1 q =
              FS.lookup fs1 q
          · rw [hrec]
            rcases g3 with hdir | ⟨hf, hqe, hlk⟩
            · exact Or.inl hdir
            · exact Or.inr ⟨e0, List.mem_cons_self _ _, hf, hqe, hlk⟩
          · obtain ⟨gg1, _, _⟩ := ih2 q hrec
            rcases g3 with hdir | ⟨_, _, hlk⟩
            · rw [gg1] at hdir; cases hdir
            · rw [gg1] at hlk; cases hlk

theorem linkEntries_done (s t : Fpath) :
    ∀ (es : List PathEntry) (fs : FS),
    (∀ e ∈ es, cleanPathB (s ++ e.rel) = true ∧ e.rel ≠ []) →
    (linkEntries s t fs es).2 = none →
    ∀ e ∈ es, entryDone s t (linkEntries s t fs es).1 e := by
  intro es
  induction es with
  | nil => intro fs _ _ e he; cases he
  | cons e0 es ih =>
    intro fs hwf hok e he
    rw [linkEntries] at hok ⊢
    cases hE : linkEntry s t fs e0 with
    | mk fs1 r =>
      rw [hE] at hok
      cases r with
      | some err => cases hok
      | none =>
        rcases List.mem_cons.mp he with rfl | htail
        · have hd0 : entryDone s t fs1 e := by
            have hx := linkEntry_done s t fs e
              (hwf e (List.mem_cons_self _ _)).1
              (hwf e (List.mem_cons_self _ _)).2 (by rw [hE])
            rw [hE] at hx
            exact hx
          exact entryDone_mono (linkEntries_spec s t es fs1
            (fun x hx => (hwf x (List.mem_cons_of_mem _ hx)).2)).1 hd0
        · exact ih fs1 (fun x hx => hwf x (List.mem_cons_of_mem _ hx)) hok
            e htail

theorem linkEntries_stable (s t : Fpath) :
    ∀ (es : List PathEntry) (fs : FS), (∀ e ∈ es, entryDone s t fs e) →
    linkEntries s t fs es = (fs, none) := by
  intro es
  induction es with
  | nil => intro fs _; rw [linkEntries]
  | cons e0 es ih =>
    intro fs hdone
    rw [linkEntries]
    rw [linkEntry_of_done s t fs e0 (hdone e0 (List.mem_cons_self _ _))]
    exact ih fs (fun e he => hdone e (List.mem_cons_of_mem _ he))

theorem linkEntries_creates (s t : Fpath) :
    ∀ (es : List PathEntry) (fs : FS), sepEntries es →
    (∀ e ∈ es, e.rel ≠ []) → (linkEntries s t fs es).2 = none →
    ∀ e ∈ es, e.isDir = false → FS.lookup fs (t ++ e.rel) = none →
      FS.lookup (linkEntries s t fs es).1 (t ++ e.rel) =
        some (Node.symlink (SPath.mk true (cleanAbs (s ++ e.rel)))) ∧
      ((t ++ e.rel).dropLast ≠ [] →
        statFollow (linkEntries s t fs es).1 statFuel
          (t ++ e.rel).dropLast = some Node.dir) := by
  intro es
  induction es with
  | nil => intro fs _ _ _ e he; cases he
  | cons e0 es ih =>
    intro fs hsep hrel hok e he hd hnone
    unfold sepEntries at hsep
    rw [List.pairwise_cons] at hsep
    rw [linkEntries] at hok ⊢
    cases hE : linkEntry s t fs e0 with
    | mk fs1 r =>
      rw [hE] at hok
      cases r with
      | some err => cases hok
      | none =>
        obtain ⟨hx1, hx2⟩ :=
          linkEntry_spec s t fs e0 (hrel e0 (List.mem_cons_self _ _))
        rw [hE] at hx1 hx2
        rcases List.mem_cons.mp he with rfl | htail
        · have htp : t ++ e.rel ≠ [] :=
            append_ne_nil_of_right (hrel e (List.mem_cons_self _ _))
          have hstep : FS.lookup fs1 (t ++ e.rel) =
              some (Node.symlink (SPath.mk true (cleanAbs (s ++ e.rel)))) ∧
              ((t ++ e.rel).dropLast ≠ [] →
                statFollow fs1 statFuel (t ++ e.rel).dropLast =
                  some Node.dir) := by
            have hcomp := linkEntry_file_none s t fs e hd hnone
            rw [hcomp] at hE
            cases hM : mkdirAll fs (t ++ e.rel).dropLast with
            | mk fs2 b =>
              rw [hM] at hE
              obtain ⟨_, m2, m3⟩ := mkdirAll_spec fs (t ++ e.rel).dropLast
              rw [hM] at m2 m3
              cases b with
              | false =>
                injection hE with h1 h2
                cases h2
              | true =>
                injection hE with h1 h2
                have hfs2 : FS.lookup fs2 (t ++ e.rel) = none := by
                  cases hc : FS.lookup fs2 (t ++ e.rel) with
                  | none => rfl
                  | some v =>
                    exfalso
                    have hch : FS.lookup fs2 (t ++ e.rel) ≠
                        FS.lookup fs (t ++ e.rel) := by
                      rw [hc, hnone]; exact fun hx => by cases hx
                    obtain ⟨_, _, g3⟩ := m2 _ hch
                    rw [isPre_dropLast_self_false htp] at g3
                    cases g3
                constructor
                · rw [← h1, FS.lookup_set, if_pos rfl]
                · intro hpar
                  rw [← h1]
                  exact statFollow_mono (fsExtends_set _ hfs2) _ _ _
                    (m3 rfl hpar)
          obtain ⟨hs1, hs2⟩ := hstep
          have hxrec := (linkEntries_spec s t es fs1
            (fun x hx => hrel x (List.mem_cons_of_mem _ hx)))
          constructor
          · by_cases hrec : FS.lookup (linkEntries s t fs1 es).1
                (t ++ e.rel) = FS.lookup fs1 (t ++ e.rel)
            · rw [hrec]; exact hs1
            · obtain ⟨g1, _, _⟩ := hxrec.2 _ hrec
              rw [hs1] at g1
              cases g1
          · intro hpar
            exact statFollow_mono hxrec.1 _ _ _ (hs2 hpar)
        · have hnone1 : FS.lookup fs1 (t ++ e.rel) = none := by
            by_cases hch : FS.lookup fs1 (t ++ e.rel) =
                FS.lookup fs (t ++ e.rel)
            · rw [hch]; exact hnone
            · obtain ⟨_, g2, _⟩ := hx2 _ hch
              rw [isPre_cancel] at g2
              have hnp : isPre e.rel e0.rel = false := (hsep.1 e htail).2 hd
              rw [hnp] at g2
              cases g2
          exact ih fs1 hsep.2 (fun x hx => hrel x (List.mem_cons_of_mem _ hx))
            hok e htail hd hnone1

/-! Assembling packages and whole runs. -/

theorem linkEntries_append (s t : Fpath) :
    ∀ (es1 es2 : List PathEntry) (fs fs1 : FS),
    linkEntries s t fs es1 = (fs1, none) →
    linkEntries s t fs (es1 ++ es2) = linkEntries s t fs1 es2 := by
  intro es1
  induction es1 with
  | nil =>
    intro es2 fs fs1 h
    rw [linkEntries] at h
    injection h with h1 _
    rw [List.nil_append, h1]
  | cons e0 es ih =>
    intro es2 fs fs1 h
    rw [linkEntries] at h
    rw [List.cons_append, linkEntries]
    cases hE : linkEntry s t fs e0 with
    | mk fsa r =>
      rw [hE] at h
      cases r with
      | some err =>
        injection h with _ h2
        cases h2
      | none => exact ih es2 fsa fs1 h

theorem linkPackages_single (gm : GlobMatcher) (sd td : Fpath)
    (pkgs : List (String × FTree)) (n : String) (fs : FS) :
    linkPackages gm sd td pkgs fs [n] =
      match findPackage pkgs n with
      | none => (fs, some (GErr.packageNotFound n))
      | some pkg => linkPackage gm sd td n pkg fs := by
  rw [linkPackages]
  cases hf : findPackage pkgs n with
  | none => rfl
  | some pkg =>
    show (match linkPackage gm sd td n pkg fs with
      | (fs1, some err) => (fs1, some err)
      | (fs1, none) => linkPackages gm sd td pkgs fs1 []) =
      linkPackage gm sd td n pkg fs
    cases hL : linkPackage gm sd td n pkg fs with
    | mk fs1 r =>
      cases r with
      | some err => rfl
      | none => rfl

theorem Link_eq (l : Linker) (gm : GlobMatcher)
    (entries : List (String × FTree)) (names : List String) (fs : FS)
    (hne : findPackages entries ≠ []) :
    l.Link gm entries names fs =
      linkPackages gm l.SourceDir l.TargetDir (findPackages entries) fs
        names := by
  unfold Linker.Link
  cases hP : findPackages entries with
  | nil => exact absurd hP hne
  | cons p ps => rfl

theorem Unlink_eq (l : Linker) (gm : GlobMatcher) (cwd : Fpath)
    (entries : List (String × FTree)) (names : List String) (fs : FS)
    (hne : findPackages entries ≠ []) :
    l.Unlink gm cwd entries names fs =
      unlinkPackages gm cwd l.SourceDir l.TargetDir (findPackages entries) fs
        names := by
  unfold Linker.Unlink
  cases hP : findPackages entries with
  | nil => exact absurd hP hne
  | cons p ps => rfl

theorem unlinkPackages_single (gm : GlobMatcher) (cwd sd td : Fpath)
    (pkgs : List (String × FTree)) (n : String) (fs : FS) :
    unlinkPackages gm cwd sd td pkgs fs [n] =
      match findPackage pkgs n with
      | none => (fs, some (GErr.packageNotFound n))
      | some pkg => unlinkPackage gm cwd sd td n pkg fs := by
  rw [unlinkPackages]
  cases hf : findPackage pkgs n with
  | none => rfl
  | some pkg =>
    show (match unlinkPackage gm cwd sd td n pkg fs with
      | (fs1, some err) => (fs1, some err)
      | (fs1, none) => unlinkPackages gm cwd sd td pkgs fs1 []) =
      unlinkPackage gm cwd sd td n pkg fs
    cases hL : unlinkPackage gm cwd sd td n pkg fs with
    | mk fs1 r =>
      cases r with
      | some err => rfl
      | none => rfl

theorem linkPackage_idem (gm : GlobMatcher) (sd td : Fpath) (n : String)
    (pkg : FTree) (fs fs1 : FS) (hwf : FTree.wfB pkg = true)
    (hclean : cleanPathB (sd ++ [n]) = true)
    (h : linkPackage gm sd td n pkg fs = (fs1, none)) :
    linkPackage gm sd td n pkg fs1 = (fs1, none) := by
  unfold linkPackage at h ⊢
  cases hload : loadIgnorePatterns pkg with
  | error u =>
    rw [hload] at h
    injection h with _ h2
    cases h2
  | ok pats =>
    rw [hload] at h
    have h' : linkEntries (sd ++ [n]) td fs (planTop gm pats pkg) =
        (fs1, none) := h
    show linkEntries (sd ++ [n]) td fs1 (planTop gm pats pkg) = (fs1, none)
    have hwfe : ∀ e ∈ planTop gm pats pkg,
        cleanPathB ((sd ++ [n]) ++ e.rel) = true ∧ e.rel ≠ [] := by
      intro e he
      exact ⟨cleanPathB_append hclean ((planTop_wf gm pats pkg hwf).1 e he),
        (planTop_entries gm pats pkg e he).1⟩
    have hdone := linkEntries_done (sd ++ [n]) td (planTop gm pats pkg) fs
      hwfe (by rw [h'])
    rw [h'] at hdone
    exact linkEntries_stable (sd ++ [n]) td (planTop gm pats pkg) fs1 hdone

theorem findPackages_ne_nil_of_find {entries : List (String × FTree)}
    {n : String} {pkg : FTree}
    (hfind : findPackage (findPackages entries) n = some pkg) :
    findPackages entries ≠ [] := by
  intro hP
  rw [hP] at hfind
  cases hfind

/-- C6: Link is idempotent — for a package resolved by the catalog from a
well-formed source tree, running `link([p])` a second time from the state a
successful run produced succeeds again and leaves the target state exactly
as it was: every already-correct symlink is skipped as a no-op rather than
an error. -/
theorem link_idempotent (l : Linker) (gm : GlobMatcher)
    (entries : List (String × FTree)) (n : String) (pkg : FTree) (fs fs1 : FS)
    (hfind : findPackage (findPackages entries) n = some pkg)
    (hwf : FTree.wfB pkg = true)
    (hclean : cleanPathB (l.SourceDir ++ [n]) = true)
    (hrun : l.Link gm entries [n] fs = (fs1, none)) :
    l.Link gm entries [n] fs1 = (fs1, none) := by
  have hne : findPackages entries ≠ [] := findPackages_ne_nil_of_find hfind
  rw [Link_eq l gm entries [n] fs hne] at hrun
  rw [Link_eq l gm entries [n] fs1 hne]
  rw [linkPackages_single] at hrun ⊢
  rw [hfind] at hrun ⊢
  exact linkPackage_idem gm l.SourceDir l.TargetDir n pkg fs fs1 hwf hclean
    hrun

/-- concrete instance of `link_idempotent`: a one-file package, first linked
into an empty target, then linked again. -/
theorem link_idempotent_witness :
    Linker.Link ⟨["src"], ["t"]⟩ (fun _ _ => Except.ok false)
      [("p", FTree.dir [("f", FTree.file "c")])] ["p"]
      ((["t", "f"], Node.symlink ⟨true, ["src", "p", "f"]⟩) ::
        [([], Node.dir), (["t"], Node.dir)]) =
      ((["t", "f"], Node.symlink ⟨true, ["src", "p", "f"]⟩) ::
        [([], Node.dir), (["t"], Node.dir)], none) :=
  link_idempotent ⟨["src"], ["t"]⟩ (fun _ _ => Except.ok false)
    [("p", FTree.dir [("f", FTree.file "c")])] "p"
    (FTree.dir [("f", FTree.file "c")])
    [([], Node.dir), (["t"], Node.dir)]
    ((["t", "f"], Node.symlink ⟨true, ["src", "p", "f"]⟩) ::
      [([], Node.dir), (["t"], Node.dir)])
    (by rfl) (by rfl) (by rfl) (by rfl)

theorem linkPackages_append (gm : GlobMatcher) (sd td : Fpath)
    (pkgs : List (String × FTree)) :
    ∀ (ns1 ns2 : List String) (fs fs1 : FS),
    linkPackages gm sd td pkgs fs ns1 = (fs1, none) →
    linkPackages gm sd td pkgs fs (ns1 ++ ns2) =
      linkPackages gm sd td pkgs fs1 ns2 := by
  intro ns1
  induction ns1 with
  | nil =>
    intro ns2 fs fs1 h
    rw [linkPackages] at h
    injection h with h1 _
    rw [List.nil_append, h1]
  | cons m ms ih =>
    intro ns2 fs fs1 h
    rw [linkPackages] at h
    rw [List.cons_append, linkPackages]
    cases hf : findPackage pkgs m with
    | none =>
      rw [hf] at h
      injection h with _ h2
      cases h2
    | some pk =>
      rw [hf] at h
      have h' : (match linkPackage gm sd td m pk fs with
        | (fsa, some err) => (fsa, some err)
        | (fsa, none) => linkPackages gm sd td pkgs fsa ms) = (fs1, none) := h
      show (match linkPackage gm sd td m pk fs with
        | (fsa, some err) => (fsa, some err)
        | (fsa, none) => linkPackages gm sd td pkgs fsa (ms ++ ns2)) =
        linkPackages gm sd td pkgs fs1 ns2
      cases hL : linkPackage gm sd td m pk fs with
      | mk fsa r =>
        rw [hL] at h'
        cases r with
        | some err =>
          injection h' with _ h2
          cases h2
        | none => exact ih ns2 fsa fs1 h'

theorem linkPackage_extends (gm : GlobMatcher) (sd td : Fpath) (n : String)
    (pkg : FTree) (fs : FS) :
    FS.Extends (linkPackage gm sd td n pkg fs).1 fs := by
  unfold linkPackage
  cases hload : loadIgnorePatterns pkg with
  | error u => exact fsExtends_refl fs
  | ok pats =>
    exact (linkEntries_spec (sd ++ [n]) td (planTop gm pats pkg) fs
      (fun e he => (planTop_entries gm pats pkg e he).1)).1

theorem linkPackages_extends (gm : GlobMatcher) (sd td : Fpath)
    (pkgs : List (String × FTree)) :
    ∀ (ns : List String) (fs : FS),
    FS.Extends (linkPackages gm sd td pkgs fs ns).1 fs := by
  intro ns
  induction ns with
  | nil => intro fs; rw [linkPackages]; exact fsExtends_refl fs
  | cons m ms ih =>
    intro fs
    rw [linkPackages]
    cases hf : findPackage pkgs m with
    | none => exact fsExtends_refl fs
    | some pk =>
      show FS.Extends (match linkPackage gm sd td m pk fs with
        | (fsa, some err) => (fsa, some err)
        | (fsa, none) => linkPackages gm sd td pkgs fsa ms).1 fs
      cases hL : linkPackage gm sd td m pk fs with
      | mk fsa r =>
        have hx : FS.Extends fsa fs := by
          have hy := linkPackage_extends gm sd td m pk fs
          rw [hL] at hy
          exact hy
        cases r with
        | some err => exact hx
        | none => exact fsExtends_trans hx (ih fsa)

theorem linkEntry_conflict (s t : Fpath) (fs : FS) (e : PathEntry) (n : Node)
    (hd : e.isDir = false) (hl : FS.lookup fs (t ++ e.rel) = some n)
    (hn : notExpected (s ++ e.rel) (t ++ e.rel) n = true) :
    linkEntry s t fs e = (fs, some (GErr.conflict (t ++ e.rel))) := by
  cases n with
  | symlink lt =>
    unfold notExpected at hn
    rw [Bool.not_eq_true'] at hn
    rw [linkEntry_file_symlink s t fs e lt hd hl, if_neg (by rw [hn]; simp)]
  | file c =>
    exact linkEntry_file_other s t fs e (Node.file c) hd hl
      (fun lt h => by cases h)
  | dir =>
    exact linkEntry_file_other s t fs e Node.dir hd hl
      (fun lt h => by cases h)

/-- C1: when Link reaches a planned file entry whose target already holds
something that is not the expected symlink (not a symlink at all, or a
symlink matching neither literally nor by resolved absolute path), the whole
run stops there with a conflict error naming that target path: the returned
state is exactly the state reached before the offending entry — the
remaining entries and packages are never applied — and a regular file that
occupied the target before the run still holds the same content. -/
theorem link_conflict_stops (l : Linker) (gm : GlobMatcher)
    (entries : List (String × FTree)) (ns1 ns2 : List String) (n : String)
    (pkg : FTree) (pats : List String) (es1 es2 : List PathEntry)
    (e : PathEntry) (node : Node) (fs fs1 fs2 : FS)
    (hpre : linkPackages gm l.SourceDir l.TargetDir (findPackages entries)
      fs ns1 = (fs1, none))
    (hfind : findPackage (findPackages entries) n = some pkg)
    (hload : loadIgnorePatterns pkg = Except.ok pats)
    (hplan : planTop gm pats pkg = es1 ++ e :: es2)
    (hes1 : linkEntries (l.SourceDir ++ [n]) l.TargetDir fs1 es1 =
      (fs2, none))
    (hd : e.isDir = false)
    (hex : FS.lookup fs2 (l.TargetDir ++ e.rel) = some node)
    (hconf : notExpected ((l.SourceDir ++ [n]) ++ e.rel)
      (l.TargetDir ++ e.rel) node = true) :
    l.Link gm entries (ns1 ++ n :: ns2) fs =
      (fs2, some (GErr.conflict (l.TargetDir ++ e.rel))) ∧
    (∀ c, FS.lookup fs (l.TargetDir ++ e.rel) = some (Node.file c) →
      FS.lookup fs2 (l.TargetDir ++ e.rel) = some (Node.file c)) := by
  have hne : findPackages entries ≠ [] := findPackages_ne_nil_of_find hfind
  have hLP : linkPackage gm l.SourceDir l.TargetDir n pkg fs1 =
      (fs2, some (GErr.conflict (l.TargetDir ++ e.rel))) := by
    unfold linkPackage
    rw [hload]
    show linkEntries (l.SourceDir ++ [n]) l.TargetDir fs1
      (planTop gm pats pkg) = _
    rw [hplan,
      linkEntries_append (l.SourceDir ++ [n]) l.TargetDir es1 (e :: es2)
        fs1 fs2 hes1,
      linkEntries,
      linkEntry_conflict (l.SourceDir ++ [n]) l.TargetDir fs2 e node hd hex
        hconf]
  constructor
  · rw [Link_eq l gm entries _ fs hne,
      linkPackages_append gm l.SourceDir l.TargetDir (findPackages entries)
        ns1 (n :: ns2) fs fs1 hpre,
      linkPackages, hfind]
    show (match linkPackage gm l.SourceDir l.TargetDir n pkg fs1 with
      | (fsa, some err) => (fsa, some err)
      | (fsa, none) =>
        linkPackages gm l.SourceDir l.TargetDir (findPackages entries) fsa
          ns2) = (fs2, some (GErr.conflict (l.TargetDir ++ e.rel)))
    rw [hLP]
  · intro c hc
    have hx1 : FS.Extends fs1 fs := by
      have hy := linkPackages_extends gm l.SourceDir l.TargetDir
        (findPackages entries) ns1 fs
      rw [hpre] at hy
      exact hy
    have hx2 : FS.Extends fs2 fs1 := by
      have hy := (linkEntries_spec (l.SourceDir ++ [n]) l.TargetDir es1 fs1
        (fun e' he' => (planTop_entries gm pats pkg e'
          (by rw [hplan]; exact List.mem_append_left _ he')).1)).1
      rw [hes1] at hy
      exact hy
    exact hx2 _ _ (hx1 _ _ hc)

/-- concrete instance of `link_conflict_stops`: a one-file package linked
into a target that already holds a regular file at the planned path. -/
theorem link_conflict_stops_witness :
    Linker.Link ⟨["src"], ["t"]⟩ (fun _ _ => Except.ok false)
      [("p", FTree.dir [("f", FTree.file "c")])] ["p"]
      [([], Node.dir), (["t"], Node.dir), (["t", "f"], Node.file "orig")] =
      ([([], Node.dir), (["t"], Node.dir), (["t", "f"], Node.file "orig")],
       some (GErr.conflict ["t", "f"])) ∧
    (∀ c, FS.lookup [([], Node.dir), (["t"], Node.dir),
        (["t", "f"], Node.file "orig")] ["t", "f"] = some (Node.file c) →
      FS.lookup [([], Node.dir), (["t"], Node.dir),
        (["t", "f"], Node.file "orig")] ["t", "f"] = some (Node.file c)) :=
  link_conflict_stops ⟨["src"], ["t"]⟩ (fun _ _ => Except.ok false)
    [("p", FTree.dir [("f", FTree.file "c")])] [] [] "p"
    (FTree.dir [("f", FTree.file "c")]) [] [] []
    ⟨["f"], false⟩ (Node.file "orig")
    [([], Node.dir), (["t"], Node.dir), (["t", "f"], Node.file "orig")]
    [([], Node.dir), (["t"], Node.dir), (["t", "f"], Node.file "orig")]
    [([], Node.dir), (["t"], Node.dir), (["t", "f"], Node.file "orig")]
    (by rfl) (by rfl) (by rfl) (by rfl) (by rfl) (by rfl) (by rfl) (by rfl)

theorem Link_single_eq (l : Linker) (gm : GlobMatcher)
    (entries : List (String × FTree)) (n : String) (pkg : FTree)
    (pats : List String) (fs : FS)
    (hfind : findPackage (findPackages entries) n = some pkg)
    (hload : loadIgnorePatterns pkg = Except.ok pats) :
    l.Link gm entries [n] fs =
      linkEntries (l.SourceDir ++ [n]) l.TargetDir fs
        (planTop gm pats pkg) := by
  have hne : findPackages entries ≠ [] := findPackages_ne_nil_of_find hfind
  rw [Link_eq l gm entries [n] fs hne, linkPackages_single, hfind]
  show linkPackage gm l.SourceDir l.TargetDir n pkg fs = _
  unfold linkPackage
  rw [hload]

theorem Unlink_single_eq (l : Linker) (gm : GlobMatcher) (cwd : Fpath)
    (entries : List (String × FTree)) (n : String) (pkg : FTree)
    (pats : List String) (fs : FS)
    (hfind : findPackage (findPackages entries) n = some pkg)
    (hload : loadIgnorePatterns pkg = Except.ok pats) :
    l.Unlink gm cwd entries [n] fs =
      (unlinkEntries cwd (l.SourceDir ++ [n]) l.TargetDir fs
        (planTop gm pats pkg), none) := by
  have hne : findPackages entries ≠ [] := findPackages_ne_nil_of_find hfind
  rw [Unlink_eq l gm cwd entries [n] fs hne, unlinkPackages_single, hfind]
  show unlinkPackage gm cwd l.SourceDir l.TargetDir n pkg fs = _
  unfold unlinkPackage
  rw [hload]

/-- C3 counterexample: Link completes without error although a planned
directory entry's target path remains a symbolic link — os.MkdirAll accepts
an existing symlink that resolves to a directory, so the target neither
becomes nor already was a real directory, contradicting the claim's "never
a symlink". -/
theorem link_dir_symlink_counterexample :
    Linker.Link ⟨["src"], ["t"]⟩ (fun _ _ => Except.ok false)
      [("p", FTree.dir [("d", FTree.dir [])])] ["p"]
      [([], Node.dir), (["t"], Node.dir),
        (["t", "d"], Node.symlink ⟨true, ["t"]⟩)] =
      ([([], Node.dir), (["t"], Node.dir),
        (["t", "d"], Node.symlink ⟨true, ["t"]⟩)], none) ∧
    PathEntry.mk ["d"] true ∈ planTop (fun _ _ => Except.ok false) []
      (FTree.dir [("d", FTree.dir [])]) ∧
    FS.lookup [([], Node.dir), (["t"], Node.dir),
      (["t", "d"], Node.symlink ⟨true, ["t"]⟩)] (["t"] ++ ["d"]) =
      some (Node.symlink ⟨true, ["t"]⟩) ∧
    some (Node.symlink (SPath.mk true ["t"])) ≠ some Node.dir := by
  refine ⟨by rfl, by decide, by rfl, by decide⟩

/-- C3 (amended): for a successful single-package Link on a well-formed
package, every planned directory entry's target resolves to a directory
after the run — a real directory is created where nothing existed, but a
pre-existing symlink that resolves to a directory is accepted and left in
place; and every planned file entry whose target held nothing before the
run now holds a symbolic link whose stored destination is the absolute form
of the source path, with its immediate parent resolving to a directory. -/
theorem link_creates_spec (l : Linker) (gm : GlobMatcher)
    (entries : List (String × FTree)) (n : String) (pkg : FTree)
    (pats : List String) (fs fs1 : FS)
    (hfind : findPackage (findPackages entries) n = some pkg)
    (hload : loadIgnorePatterns pkg = Except.ok pats)
    (hwf : FTree.wfB pkg = true)
    (hclean : cleanPathB (l.SourceDir ++ [n]) = true)
    (htd : l.TargetDir ≠ [])
    (hrun : l.Link gm entries [n] fs = (fs1, none)) :
    ∀ e ∈ planTop gm pats pkg,
      (e.isDir = true →
        statFollow fs1 statFuel (l.TargetDir ++ e.rel) = some Node.dir) ∧
      (e.isDir = false → FS.lookup fs (l.TargetDir ++ e.rel) = none →
        FS.lookup fs1 (l.TargetDir ++ e.rel) =
          some (Node.symlink (SPath.mk true
            (cleanAbs ((l.SourceDir ++ [n]) ++ e.rel)))) ∧
        statFollow fs1 statFuel (l.TargetDir ++ e.rel).dropLast =
          some Node.dir) := by
  rw [Link_single_eq l gm entries n pkg pats fs hfind hload] at hrun
  intro e he
  have hrel : ∀ x ∈ planTop gm pats pkg, x.rel ≠ [] :=
    fun x hx => (planTop_entries gm pats pkg x hx).1
  have hwfe : ∀ x ∈ planTop gm pats pkg,
      cleanPathB ((l.SourceDir ++ [n]) ++ x.rel) = true ∧ x.rel ≠ [] :=
    fun x hx => ⟨cleanPathB_append hclean ((planTop_wf gm pats pkg hwf).1 x hx),
      hrel x hx⟩
  constructor
  · intro hd
    have hdone := linkEntries_done (l.SourceDir ++ [n]) l.TargetDir
      (planTop gm pats pkg) fs hwfe (by rw [hrun]) e he
    rw [hrun] at hdone
    unfold entryDone at hdone
    rw [hd, if_pos rfl] at hdone
    exact hdone
  · intro hd hnone
    have hpar : (l.TargetDir ++ e.rel).dropLast ≠ [] := by
      intro hEq
      have h1 := congrArg List.length hEq
      rw [List.length_dropLast, List.length_append] at h1
      have h2 : 0 < l.TargetDir.length :=
        List.length_pos.mpr htd
      have h3 : 0 < e.rel.length :=
        List.length_pos.mpr (hrel e he)
      simp at h1
      omega
    have hcr := linkEntries_creates (l.SourceDir ++ [n]) l.TargetDir
      (planTop gm pats pkg) fs (planTop_wf gm pats pkg hwf).2 hrel
      (by rw [hrun]) e he hd hnone
    rw [hrun] at hcr
    exact ⟨hcr.1, hcr.2 hpar⟩

/-- concrete instance of `link_creates_spec`: a package with one directory
and one file inside it, linked into an empty target. -/
theorem link_creates_spec_witness :
    (PathEntry.mk ["d"] true ∈ planTop (fun _ _ => Except.ok false) []
      (FTree.dir [("d", FTree.dir [("f", FTree.file "c")])])) ∧
    (statFollow ((["t", "d", "f"],
        Node.symlink ⟨true, ["src", "p", "d", "f"]⟩) ::
        FS.set [([], Node.dir), (["t"], Node.dir)] ["t", "d"] Node.dir)
      statFuel (["t"] ++ ["d"]) = some Node.dir) := by
  have h := link_creates_spec ⟨["src"], ["t"]⟩ (fun _ _ => Except.ok false)
    [("p", FTree.dir [("d", FTree.dir [("f", FTree.file "c")])])] "p"
    (FTree.dir [("d", FTree.dir [("f", FTree.file "c")])]) []
    [([], Node.dir), (["t"], Node.dir)]
    ((["t", "d", "f"], Node.symlink ⟨true, ["src", "p", "d", "f"]⟩) ::
      FS.set [([], Node.dir), (["t"], Node.dir)] ["t", "d"] Node.dir)
    (by rfl) (by rfl) (by decide) (by decide) (by decide) (by rfl)
    (PathEntry.mk ["d"] true) (by decide)
  exact ⟨by decide, h.1 rfl⟩

/-- C7 counterexample, two failures of the original claim.  First: a package
containing an empty directory, linked into an empty target and then
unlinked, leaves that directory behind empty — the pruning climb only starts
from removed links, so an empty directory created by Link survives the round
trip, contradicting the claim's "empty ones are pruned".  Second: from an
already-linked target state (a state in which link([p]) succeeds, by
skipping the matching symlink), unlink([p]) removes that pre-existing
symlink, so the file's target ends absent instead of being restored to its
pre-link state — the claim's "any target state in which link([p]) succeeds"
also fails on such starts. -/
theorem roundtrip_counterexample :
    (Linker.Link ⟨["src"], ["t"]⟩ (fun _ _ => Except.ok false)
      [("p", FTree.dir [("data", FTree.dir []), ("f", FTree.file "c")])]
      ["p"] [([], Node.dir), (["t"], Node.dir)]).2 = none ∧
    (Linker.Unlink ⟨["src"], ["t"]⟩ (fun _ _ => Except.ok false) []
      [("p", FTree.dir [("data", FTree.dir []), ("f", FTree.file "c")])]
      ["p"]
      (Linker.Link ⟨["src"], ["t"]⟩ (fun _ _ => Except.ok false)
        [("p", FTree.dir [("data", FTree.dir []), ("f", FTree.file "c")])]
        ["p"] [([], Node.dir), (["t"], Node.dir)]).1).2 = none ∧
    FS.lookup [([], Node.dir), (["t"], Node.dir)] ["t", "data"] = none ∧
    FS.lookup (Linker.Unlink ⟨["src"], ["t"]⟩ (fun _ _ => Except.ok false) []
      [("p", FTree.dir [("data", FTree.dir []), ("f", FTree.file "c")])]
      ["p"]
      (Linker.Link ⟨["src"], ["t"]⟩ (fun _ _ => Except.ok false)
        [("p", FTree.dir [("data", FTree.dir []), ("f", FTree.file "c")])]
        ["p"] [([], Node.dir), (["t"], Node.dir)]).1).1 ["t", "data"] =
      some Node.dir ∧
    FS.hasEntryUnder (Linker.Unlink ⟨["src"], ["t"]⟩
      (fun _ _ => Except.ok false) []
      [("p", FTree.dir [("data", FTree.dir []), ("f", FTree.file "c")])]
      ["p"]
      (Linker.Link ⟨["src"], ["t"]⟩ (fun _ _ => Except.ok false)
        [("p", FTree.dir [("data", FTree.dir []), ("f", FTree.file "c")])]
        ["p"] [([], Node.dir), (["t"], Node.dir)]).1).1 ["t", "data"] =
      false ∧
    (Linker.Link ⟨["src"], ["t"]⟩ (fun _ _ => Except.ok false)
      [("p", FTree.dir [("f", FTree.file "c")])] ["p"]
      [(["t", "f"], Node.symlink ⟨true, ["src", "p", "f"]⟩),
       ([], Node.dir), (["t"], Node.dir)]) =
      ([(["t", "f"], Node.symlink ⟨true, ["src", "p", "f"]⟩),
        ([], Node.dir), (["t"], Node.dir)], none) ∧
    FS.lookup [(["t", "f"], Node.symlink ⟨true, ["src", "p", "f"]⟩),
        ([], Node.dir), (["t"], Node.dir)] ["t", "f"] =
      some (Node.symlink ⟨true, ["src", "p", "f"]⟩) ∧
    (Linker.Unlink ⟨["src"], ["t"]⟩ (fun _ _ => Except.ok false) []
      [("p", FTree.dir [("f", FTree.file "c")])] ["p"]
      [(["t", "f"], Node.symlink ⟨true, ["src", "p", "f"]⟩),
       ([], Node.dir), (["t"], Node.dir)]).2 = none ∧
    FS.lookup (Linker.Unlink ⟨["src"], ["t"]⟩ (fun _ _ => Except.ok false) []
      [("p", FTree.dir [("f", FTree.file "c")])] ["p"]
      [(["t", "f"], Node.symlink ⟨true, ["src", "p", "f"]⟩),
       ([], Node.dir), (["t"], Node.dir)]).1 ["t", "f"] = none := by
  refine ⟨by rfl, by rfl, by rfl, by rfl, by rfl, by rfl, by rfl, by rfl,
    by rfl⟩

/-- C7 (amended): for a package with no ignore file from a well-formed
source tree, starting from any target state in which link([p]) succeeds and
no planned file entry's target already exists, link([p]) followed by
unlink([p]) succeeds and restores every file entry's target to its pre-link
state (absent).  Both restrictions of the original claim are forced: an
empty directory created by Link survives the round trip (directories are
pruned only when the removal of a link beneath them leaves them empty), and
from an already-linked start — a state in which link([p]) also succeeds —
unlink removes the pre-existing matching symlink, so restoration fails
without the absent-targets hypothesis. -/
theorem link_unlink_roundtrip (l : Linker) (gm : GlobMatcher) (cwd : Fpath)
    (entries : List (String × FTree)) (n : String) (pkg : FTree)
    (fs fs1 : FS)
    (hfind : findPackage (findPackages entries) n = some pkg)
    (hnoig : loadIgnorePatterns pkg = Except.ok [])
    (hwf : FTree.wfB pkg = true)
    (hpre : ∀ e ∈ planTop gm [] pkg, e.isDir = false →
      FS.lookup fs (l.TargetDir ++ e.rel) = none)
    (hrun : l.Link gm entries [n] fs = (fs1, none)) :
    (l.Unlink gm cwd entries [n] fs1).2 = none ∧
    (∀ e ∈ planTop gm [] pkg, e.isDir = false →
      FS.lookup (l.Unlink gm cwd entries [n] fs1).1 (l.TargetDir ++ e.rel) =
        FS.lookup fs (l.TargetDir ++ e.rel)) := by
  rw [Link_single_eq l gm entries n pkg [] fs hfind hnoig] at hrun
  rw [Unlink_single_eq l gm cwd entries n pkg [] fs1 hfind hnoig]
  have hrel : ∀ x ∈ planTop gm [] pkg, x.rel ≠ [] :=
    fun x hx => (planTop_entries gm [] pkg x hx).1
  have hsep : sepEntries (planTop gm [] pkg) := (planTop_wf gm [] pkg hwf).2
  have hlinks : ∀ e ∈ planTop gm [] pkg, e.isDir = false →
      FS.lookup fs1 (l.TargetDir ++ e.rel) =
        some (Node.symlink (SPath.mk true
          (cleanAbs ((l.SourceDir ++ [n]) ++ e.rel)))) := by
    intro e he hd
    have hcr := linkEntries_creates (l.SourceDir ++ [n]) l.TargetDir
      (planTop gm [] pkg) fs hsep hrel (by rw [hrun]) e he hd
      (hpre e he hd)
    rw [hrun] at hcr
    exact hcr.1
  refine ⟨rfl, ?_⟩
  intro e he hd
  rw [hpre e he hd]
  exact unlinkEntries_removes cwd (l.SourceDir ++ [n]) l.TargetDir
    (planTop gm [] pkg) fs1 hsep hlinks e he hd

/-- concrete instance of `link_unlink_roundtrip`: one file, linked into an
empty target and unlinked again. -/
theorem link_unlink_roundtrip_witness :
    (Linker.Unlink ⟨["src"], ["t"]⟩ (fun _ _ => Except.ok false) []
      [("p", FTree.dir [("f", FTree.file "c")])] ["p"]
      ((["t", "f"], Node.symlink ⟨true, ["src", "p", "f"]⟩) ::
        [([], Node.dir), (["t"], Node.dir)])).2 = none ∧
    (∀ e ∈ planTop (fun _ _ => Except.ok false) []
        (FTree.dir [("f", FTree.file "c")]), e.isDir = false →
      FS.lookup (Linker.Unlink ⟨["src"], ["t"]⟩ (fun _ _ => Except.ok false)
        [] [("p", FTree.dir [("f", FTree.file "c")])] ["p"]
        ((["t", "f"], Node.symlink ⟨true, ["src", "p", "f"]⟩) ::
          [([], Node.dir), (["t"], Node.dir)])).1 (["t"] ++ e.rel) =
        FS.lookup [([], Node.dir), (["t"], Node.dir)] (["t"] ++ e.rel)) :=
  link_unlink_roundtrip ⟨["src"], ["t"]⟩ (fun _ _ => Except.ok false) []
    [("p", FTree.dir [("f", FTree.file "c")])] "p"
    (FTree.dir [("f", FTree.file "c")])
    [([], Node.dir), (["t"], Node.dir)]
    ((["t", "f"], Node.symlink ⟨true, ["src", "p", "f"]⟩) ::
      [([], Node.dir), (["t"], Node.dir)])
    (by rfl) (by rfl) (by decide) (by decide) (by rfl)

/-- C4: for a file entry processed by Unlink, the target is left untouched
when it does not exist, when it exists but is not a symlink, and when it is a
symlink whose resolved absolute destination differs from the absolute source
path; only a symlink whose resolved absolute destination equals the absolute
source path is removed (followed by ancestor pruning), and processing always
continues to the remaining entries — no case produces an error. -/
theorem unlink_entry_cases (cwd s t : Fpath) (fs : FS) (e : PathEntry)
    (es : List PathEntry) :
    (FS.lookup fs (t ++ e.rel) = none → unlinkEntry cwd s t fs e = fs) ∧
    (∀ c, FS.lookup fs (t ++ e.rel) = some (Node.file c) →
      unlinkEntry cwd s t fs e = fs) ∧
    (FS.lookup fs (t ++ e.rel) = some Node.dir →
      unlinkEntry cwd s t fs e = fs) ∧
    (∀ lt, FS.lookup fs (t ++ e.rel) = some (Node.symlink lt) →
      absPath cwd lt ≠ cleanAbs (s ++ e.rel) →
      unlinkEntry cwd s t fs e = fs) ∧
    (∀ lt, FS.lookup fs (t ++ e.rel) = some (Node.symlink lt) →
      absPath cwd lt = cleanAbs (s ++ e.rel) →
      FS.lookup (unlinkEntry cwd s t fs e) (t ++ e.rel) = none ∧
      unlinkEntry cwd s t fs e =
        removeEmptyParents (FS.erase fs (t ++ e.rel)) (t ++ e.rel) t) ∧
    unlinkEntries cwd s t fs (e :: es) =
      unlinkEntries cwd s t (unlinkEntry cwd s t fs e) es := by
  refine ⟨?_, ?_, ?_, ?_, ?_, rfl⟩
  · intro hl
    exact unlinkEntry_skip cwd s t fs e
      (fun lt h => by rw [hl] at h; cases h)
  · intro c hl
    exact unlinkEntry_skip cwd s t fs e
      (fun lt h => by rw [hl] at h; cases h)
  · intro hl
    exact unlinkEntry_skip cwd s t fs e
      (fun lt h => by rw [hl] at h; cases h)
  · intro lt hl hne
    refine unlinkEntry_skip cwd s t fs e (fun lt' h => ?_)
    rw [hl] at h
    cases h
    exact beq_eq_false_iff_ne.mpr hne
  · intro lt hl hm
    have hb : (absPath cwd lt == cleanAbs (s ++ e.rel)) = true :=
      beq_iff_eq.mpr hm
    rw [unlinkEntry_remove cwd s t fs e hl hb]
    obtain ⟨r1, _, _⟩ :=
      removeEmptyParents_spec (FS.erase fs (t ++ e.rel)) (t ++ e.rel) t
    refine ⟨?_, rfl⟩
    have h1 : FS.lookup (FS.erase fs (t ++ e.rel)) (t ++ e.rel) = none := by
      rw [FS.lookup_erase, if_pos rfl]
    cases hfq : FS.lookup (removeEmptyParents
        (FS.erase fs (t ++ e.rel)) (t ++ e.rel) t) (t ++ e.rel) with
    | none => rfl
    | some m => rw [r1 (t ++ e.rel) m hfq] at h1; cases h1

/-- concrete instance of `unlink_entry_cases`: a matching symlink at the
target is removed. -/
theorem unlink_entry_cases_witness :
    FS.lookup (unlinkEntry [] ["src", "p"] ["t"]
      [(["t", "f"], Node.symlink ⟨true, ["src", "p", "f"]⟩),
       ([], Node.dir), (["t"], Node.dir)]
      { rel := ["f"], isDir := false }) (["t"] ++ ["f"]) = none ∧
    unlinkEntry [] ["src", "p"] ["t"]
      [(["t", "f"], Node.symlink ⟨true, ["src", "p", "f"]⟩),
       ([], Node.dir), (["t"], Node.dir)]
      { rel := ["f"], isDir := false } =
      removeEmptyParents (FS.erase
        [(["t", "f"], Node.symlink ⟨true, ["src", "p", "f"]⟩),
         ([], Node.dir), (["t"], Node.dir)] (["t"] ++ ["f"]))
        (["t"] ++ ["f"]) ["t"] :=
  (unlink_entry_cases [] ["src", "p"] ["t"]
    [(["t", "f"], Node.symlink ⟨true, ["src", "p", "f"]⟩),
     ([], Node.dir), (["t"], Node.dir)]
    { rel := ["f"], isDir := false } []).2.2.2.2.1
    ⟨true, ["src", "p", "f"]⟩ (by rfl) (by decide)

/-- C5: ancestor pruning starts at the immediate parent of the removed link
and only ever deletes entries; every deleted path is a strict descendant of
the target root lying on the ancestor chain of that parent — never the target
root itself, never the filesystem root, never a non-descendant — and the
target root's entry is preserved; the climb halts without error at the stop
conditions (current directory equals the target root, is the filesystem
root, or is not a descendant of the target root) and when the removal
attempt fails (in particular on a non-empty directory), while a successful
removal deletes exactly that directory — possible for a directory only when
nothing lies beneath it — and continues one level upward. -/
theorem prune_ancestors_spec (fs : FS) (tp base : Fpath) :
    removeEmptyParents fs tp base =
      removeEmptyParentsLoop (cleanAbs base) (tp.dropLast.length + 1) fs
        tp.dropLast ∧
    FS.Within (removeEmptyParents fs tp base) fs ∧
    (∀ q, FS.lookup (removeEmptyParents fs tp base) q ≠ FS.lookup fs q →
      FS.lookup (removeEmptyParents fs tp base) q = none ∧
      isPre (cleanAbs base) q = true ∧ q ≠ cleanAbs base ∧ q ≠ [] ∧
      isPre q tp.dropLast = true) ∧
    FS.lookup (removeEmptyParents fs tp base) (cleanAbs base) =
      FS.lookup fs (cleanAbs base) ∧
    (∀ (fuel : Nat) (p : Fpath) (fs1 : FS),
      (p == cleanAbs base || p.isEmpty || !isPre (cleanAbs base) p) = true →
      removeEmptyParentsLoop (cleanAbs base) (fuel + 1) fs1 p = fs1) ∧
    (∀ (fuel : Nat) (p : Fpath) (fs1 : FS),
      (p == cleanAbs base || p.isEmpty || !isPre (cleanAbs base) p) = false →
      FS.removeOp fs1 p = none →
      removeEmptyParentsLoop (cleanAbs base) (fuel + 1) fs1 p = fs1) ∧
    (∀ (fuel : Nat) (p : Fpath) (fs1 fs2 : FS),
      (p == cleanAbs base || p.isEmpty || !isPre (cleanAbs base) p) = false →
      FS.removeOp fs1 p = some fs2 →
      removeEmptyParentsLoop (cleanAbs base) (fuel + 1) fs1 p =
        removeEmptyParentsLoop (cleanAbs base) fuel fs2 p.dropLast ∧
      fs2 = FS.erase fs1 p ∧
      (FS.lookup fs1 p = some Node.dir →
        FS.hasEntryUnder fs1 p = false)) := by
  obtain ⟨r1, r2, _⟩ := removeEmptyParents_spec fs tp base
  refine ⟨rfl, r1, r2, ?_, ?_, ?_, ?_⟩
  · by_contra hne
    exact absurd rfl (r2 (cleanAbs base) hne).2.2.1
  · intro fuel p fs1 h
    simp only [removeEmptyParentsLoop]
    rw [if_pos h]
  · intro fuel p fs1 h hop
    simp only [removeEmptyParentsLoop]
    rw [if_neg (by simp [h]), hop]
  · intro fuel p fs1 fs2 h hop
    obtain ⟨herase, v, hv, himp⟩ := removeOp_some hop
    refine ⟨?_, herase, ?_⟩
    · simp only [removeEmptyParentsLoop]
      rw [if_neg (by simp [h]), hop]
    · intro hdir
      rw [hv] at hdir
      injection hdir with hdir'
      exact himp hdir'

/-- concrete instance of `prune_ancestors_spec`: one removal step on an
empty directory strictly below the target root. -/
theorem prune_ancestors_spec_witness :
    removeEmptyParentsLoop (cleanAbs ["t"]) (1 + 1)
        [([], Node.dir), (["t"], Node.dir), (["t", "bin"], Node.dir)]
        ["t", "bin"] =
      removeEmptyParentsLoop (cleanAbs ["t"]) 1
        (FS.erase [([], Node.dir), (["t"], Node.dir),
          (["t", "bin"], Node.dir)] ["t", "bin"])
        (["t", "bin"] : Fpath).dropLast ∧
    FS.erase [([], Node.dir), (["t"], Node.dir), (["t", "bin"], Node.dir)]
        ["t", "bin"] =
      FS.erase [([], Node.dir), (["t"], Node.dir), (["t", "bin"], Node.dir)]
        ["t", "bin"] ∧
    (FS.lookup [([], Node.dir), (["t"], Node.dir), (["t", "bin"], Node.dir)]
        ["t", "bin"] = some Node.dir →
      FS.hasEntryUnder
        [([], Node.dir), (["t"], Node.dir), (["t", "bin"], Node.dir)]
        ["t", "bin"] = false) :=
  (prune_ancestors_spec [] [] ["t"]).2.2.2.2.2.2 1 ["t", "bin"]
    [([], Node.dir), (["t"], Node.dir), (["t", "bin"], Node.dir)]
    (FS.erase [([], Node.dir), (["t"], Node.dir), (["t", "bin"], Node.dir)]
      ["t", "bin"])
    (by decide) (by rfl)

/-- C8: a relative path is ignored iff some loaded pattern matches it; a
pattern is matched against the full relative path first, and only on a
failed match and only for a separator-free pattern additionally against the
basename; a malformed pattern (glob error on either attempt) never counts as
a match and never aborts the operation; an ignored node other than
`.gslk-ignore` produces no entry at all — for a directory this prunes the
whole subtree — while its siblings are still processed; and Link and Unlink
consume the identical plan built from the same loaded patterns. -/
theorem ignore_matching_spec (gm : GlobMatcher) (patterns : List String)
    (rel : Fpath) :
    (isIgnored gm patterns rel = true ↔
      ∃ p ∈ patterns, patternIgnores gm p rel = true) ∧
    (∀ pat, gm pat (renderRel rel) = Except.ok true →
      patternIgnores gm pat rel = true) ∧
    (∀ pat m, gm pat (renderRel rel) = Except.ok false →
      pat.contains '/' = false → gm pat (baseName rel) = Except.ok m →
      patternIgnores gm pat rel = m) ∧
    (∀ pat, gm pat (renderRel rel) = Except.ok false →
      pat.contains '/' = true → patternIgnores gm pat rel = false) ∧
    (∀ pat u, gm pat (renderRel rel) = Except.error u →
      patternIgnores gm pat rel = false) ∧
    (∀ pat u, gm pat (renderRel rel) = Except.ok false →
      pat.contains '/' = false → gm pat (baseName rel) = Except.error u →
      patternIgnores gm pat rel = false) ∧
    (∀ (name : String) (t : FTree) (r : Fpath),
      name ≠ ".gslk-ignore" →
      isIgnored gm patterns (r ++ [name]) = true →
      planNode gm patterns r name t = []) ∧
    (∀ (name : String) (t : FTree) (rest : List (String × FTree))
        (r : Fpath),
      planChildren gm patterns r ((name, t) :: rest) =
        planNode gm patterns r name t ++ planChildren gm patterns r rest) ∧
    (∀ (l : Linker) (cwd : Fpath) (entries : List (String × FTree))
        (n : String) (pkg : FTree) (fs : FS),
      findPackage (findPackages entries) n = some pkg →
      loadIgnorePatterns pkg = Except.ok patterns →
      l.Link gm entries [n] fs =
        linkEntries (l.SourceDir ++ [n]) l.TargetDir fs
          (planTop gm patterns pkg) ∧
      l.Unlink gm cwd entries [n] fs =
        (unlinkEntries cwd (l.SourceDir ++ [n]) l.TargetDir fs
          (planTop gm patterns pkg), none)) := by
  refine ⟨?_, ?_, ?_, ?_, ?_, ?_, ?_, ?_, ?_⟩
  · simp [isIgnored, List.any_eq_true]
  · intro pat h
    unfold patternIgnores
    rw [h]
  · intro pat m h hc hb
    unfold patternIgnores
    rw [h]
    show (if pat.contains ('/') = true then false
      else match gm pat (baseName rel) with
        | Except.error _ => false
        | Except.ok m => m) = m
    rw [if_neg (by simp [hc]), hb]
  · intro pat h hc
    unfold patternIgnores
    rw [h]
    show (if pat.contains ('/') = true then false
      else match gm pat (baseName rel) with
        | Except.error _ => false
        | Except.ok m => m) = false
    rw [if_pos hc]
  · intro pat u h
    unfold patternIgnores
    rw [h]
  · intro pat u h hc hb
    unfold patternIgnores
    rw [h]
    show (if pat.contains ('/') = true then false
      else match gm pat (baseName rel) with
        | Except.error _ => false
        | Except.ok m => m) = false
    rw [if_neg (by simp [hc]), hb]
  · intro name t r hname hig
    cases t with
    | file c =>
      rw [planNode, if_neg hname, if_pos hig]
    | dir cs =>
      rw [planNode, if_neg hname, if_pos hig]
  · intro name t rest r
    rw [planChildren]
  · intro l cwd entries n pkg fs hfind hload
    exact ⟨Link_single_eq l gm entries n pkg patterns fs hfind hload,
      Unlink_single_eq l gm cwd entries n pkg patterns fs hfind hload⟩

/-- concrete instance of `ignore_matching_spec`: the separator-free pattern
falls back to a basename match on a nested path. -/
theorem ignore_matching_spec_witness :
    patternIgnores (fun p s => Except.ok (p == s)) "secrets.yml"
      ["config", "secrets.yml"] = true :=
  (ignore_matching_spec (fun p s => Except.ok (p == s)) ["secrets.yml"]
    ["config", "secrets.yml"]).2.2.1 "secrets.yml" true (by rfl)
    (by simp [Bool.eq_false_iff, String.contains_iff]) (by rfl)

/-- C10 counterexample: Unlink removes a target symlink at a relative path
whose basename is `.gslk-ignore`.  A directory named `.gslk-ignore` below the
package root is skipped without SkipDir, so its children are still planned;
removing a matching child link makes the pruning climb call os.Remove on the
`.gslk-ignore` path itself, and os.Remove unlinks a symlink found there. -/
theorem unlink_ignorefile_removed_counterexample :
    baseName ["x", ".gslk-ignore"] = ".gslk-ignore" ∧
    FS.lookup [([], Node.dir), (["t"], Node.dir), (["t", "x"], Node.dir),
        (["t", "x", ".gslk-ignore"], Node.symlink ⟨true, ["elsewhere"]⟩),
        (["t", "x", ".gslk-ignore", "f"],
          Node.symlink ⟨true, ["src", "p", "x", ".gslk-ignore", "f"]⟩)]
      (["t"] ++ ["x", ".gslk-ignore"]) =
      some (Node.symlink ⟨true, ["elsewhere"]⟩) ∧
    (Linker.Unlink ⟨["src"], ["t"]⟩ (fun _ _ => Except.ok false) []
      [("p", FTree.dir [("x", FTree.dir
        [(".gslk-ignore", FTree.dir [("f", FTree.file "c")])])])] ["p"]
      [([], Node.dir), (["t"], Node.dir), (["t", "x"], Node.dir),
        (["t", "x", ".gslk-ignore"], Node.symlink ⟨true, ["elsewhere"]⟩),
        (["t", "x", ".gslk-ignore", "f"],
          Node.symlink ⟨true, ["src", "p", "x", ".gslk-ignore", "f"]⟩)]).2 =
      none ∧
    FS.lookup (Linker.Unlink ⟨["src"], ["t"]⟩ (fun _ _ => Except.ok false) []
      [("p", FTree.dir [("x", FTree.dir
        [(".gslk-ignore", FTree.dir [("f", FTree.file "c")])])])] ["p"]
      [([], Node.dir), (["t"], Node.dir), (["t", "x"], Node.dir),
        (["t", "x", ".gslk-ignore"], Node.symlink ⟨true, ["elsewhere"]⟩),
        (["t", "x", ".gslk-ignore", "f"],
          Node.symlink ⟨true, ["src", "p", "x", ".gslk-ignore", "f"]⟩)]).1
      (["t"] ++ ["x", ".gslk-ignore"]) = none := by
  refine ⟨by rfl, by rfl, by rfl, by rfl⟩

/-- C10 (amended): the plan of every package excludes every node whose
basename is `.gslk-ignore`, at any depth, and Link never creates a symbolic
link at a target path with that basename; during Unlink, however, the
pruning climb may still remove a target entry at such a path. -/
theorem ignorefile_excluded_amended (l : Linker) (gm : GlobMatcher)
    (entries : List (String × FTree)) (n : String) (pkg : FTree)
    (pats : List String) (fs fs1 : FS) (r : Option GErr)
    (hfind : findPackage (findPackages entries) n = some pkg)
    (hload : loadIgnorePatterns pkg = Except.ok pats)
    (hrun : l.Link gm entries [n] fs = (fs1, r)) :
    (∀ e ∈ planTop gm pats pkg, baseName e.rel ≠ ".gslk-ignore") ∧
    (∀ q d, FS.lookup fs1 q ≠ FS.lookup fs q →
      FS.lookup fs1 q = some (Node.symlink d) →
      baseName q ≠ ".gslk-ignore") := by
  have hE := Link_single_eq l gm entries n pkg pats fs hfind hload
  rw [hE] at hrun
  have hfs1 : (linkEntries (l.SourceDir ++ [n]) l.TargetDir fs
      (planTop gm pats pkg)).1 = fs1 := by rw [hrun]
  obtain ⟨_, hspec⟩ := linkEntries_spec (l.SourceDir ++ [n]) l.TargetDir
    (planTop gm pats pkg) fs
    (fun e he => (planTop_entries gm pats pkg e he).1)
  rw [hfs1] at hspec
  refine ⟨fun e he => (planTop_entries gm pats pkg e he).2.1, ?_⟩
  intro q d hch hl
  obtain ⟨g1, g2, g3⟩ := hspec q hch
  rcases g3 with hdir | ⟨e, he, hed, hqe, hsym⟩
  · rw [hl] at hdir
    simp at hdir
  · subst hqe
    have hrelne : e.rel ≠ [] := (planTop_entries gm pats pkg e he).1
    have hb : baseName (l.TargetDir ++ e.rel) = baseName e.rel := by
      rcases List.eq_nil_or_concat e.rel with hnil | ⟨ys, y, hcat⟩
      · exact absurd hnil hrelne
      · rw [hcat, List.concat_eq_append, ← List.append_assoc,
          baseName_append, baseName_append]
    rw [hb]
    exact (planTop_entries gm pats pkg e he).2.1

/-- concrete instance of `ignorefile_excluded_amended`: a one-file package
linked into an empty target. -/
theorem ignorefile_excluded_amended_witness :
    (∀ e ∈ planTop (fun _ _ => Except.ok false) []
        (FTree.dir [("f", FTree.file "c")]),
      baseName e.rel ≠ ".gslk-ignore") ∧
    (∀ q d, FS.lookup ((["t", "f"],
          Node.symlink ⟨true, ["src", "p", "f"]⟩) ::
        [([], Node.dir), (["t"], Node.dir)]) q ≠
        FS.lookup [([], Node.dir), (["t"], Node.dir)] q →
      FS.lookup ((["t", "f"], Node.symlink ⟨true, ["src", "p", "f"]⟩) ::
        [([], Node.dir), (["t"], Node.dir)]) q = some (Node.symlink d) →
      baseName q ≠ ".gslk-ignore") :=
  ignorefile_excluded_amended ⟨["src"], ["t"]⟩ (fun _ _ => Except.ok false)
    [("p", FTree.dir [("f", FTree.file "c")])] "p"
    (FTree.dir [("f", FTree.file "c")]) []
    [([], Node.dir), (["t"], Node.dir)]
    ((["t", "f"], Node.symlink ⟨true, ["src", "p", "f"]⟩) ::
      [([], Node.dir), (["t"], Node.dir)]) none
    (by rfl) (by rfl) (by rfl)

theorem verifyEntries_none_iff (cwd s t : Fpath) (fs : FS) :
    ∀ es : List PathEntry, (verifyEntries cwd s t fs es = none ↔
      ∀ e ∈ es, residualEntry cwd s t fs e = false) := by
  intro es
  induction es with
  | nil =>
    rw [verifyEntries]
    exact ⟨fun _ e he => absurd he (List.not_mem_nil e), fun _ => rfl⟩
  | cons e0 es ih =>
    rw [verifyEntries]
    by_cases hres : residualEntry cwd s t fs e0 = true
    · rw [if_pos hres]
      constructor
      · intro h; cases h
      · intro h
        rw [h e0 (List.mem_cons_self _ _)] at hres
        cases hres
    · rw [if_neg hres]
      rw [Bool.not_eq_true] at hres
      constructor
      · intro h e he
        rcases List.mem_cons.mp he with rfl | ht
        · exact hres
        · exact ih.mp h e ht
      · intro h
        exact ih.mpr (fun e he => h e (List.mem_cons_of_mem _ he))

theorem verifyEntries_some (cwd s t : Fpath) (fs : FS) :
    ∀ (es : List PathEntry) (err : GErr),
      verifyEntries cwd s t fs es = some err →
      ∃ e ∈ es, residualEntry cwd s t fs e = true ∧
        err = GErr.verification (t ++ e.rel) := by
  intro es
  induction es with
  | nil => intro err h; rw [verifyEntries] at h; cases h
  | cons e0 es ih =>
    intro err h
    rw [verifyEntries] at h
    by_cases hres : residualEntry cwd s t fs e0 = true
    · rw [if_pos hres] at h
      injection h with h'
      exact ⟨e0, List.mem_cons_self _ _, hres, h'.symm⟩
    · rw [if_neg hres] at h
      obtain ⟨e, he, hr, herr⟩ := ih err h
      exact ⟨e, List.mem_cons_of_mem _ he, hr, herr⟩

/-- C2 (Modelled from the spec: the post-unlink verification is absent from
src/linker.go though repository callers rely on it): after Unlink has
processed the requested packages, a failed Unlink is surfaced as-is, while a
successful one is followed by a re-planning scan that returns success iff no
file entry's target is still a symlink matching the corresponding source —
any residue yields a VerificationError naming a residual target — and after
a genuine single-package unlink the verification always passes. -/
theorem unlink_verification_spec (l : Linker) (gm : GlobMatcher) (cwd : Fpath)
    (entries : List (String × FTree)) (names : List String) (fs : FS) :
    (∀ fs1 err, l.Unlink gm cwd entries names fs = (fs1, some err) →
      l.UnlinkVerified gm cwd entries names fs = (fs1, some err)) ∧
    (∀ fs1, l.Unlink gm cwd entries names fs = (fs1, none) →
      l.UnlinkVerified gm cwd entries names fs =
        (fs1, verifyPackages gm cwd l.SourceDir l.TargetDir
          (findPackages entries) fs1 names)) ∧
    (∀ (s t : Fpath) (fs2 : FS) (es : List PathEntry),
      verifyEntries cwd s t fs2 es = none ↔
        ∀ e ∈ es, residualEntry cwd s t fs2 e = false) ∧
    (∀ (s t : Fpath) (fs2 : FS) (es : List PathEntry) (err : GErr),
      verifyEntries cwd s t fs2 es = some err →
      ∃ e ∈ es, residualEntry cwd s t fs2 e = true ∧
        err = GErr.verification (t ++ e.rel)) ∧
    (∀ (pkgs : List (String × FTree)) (fs2 : FS),
      (∀ n ∈ names, ∃ pkg, findPackage pkgs n = some pkg ∧
        ∃ pats, loadIgnorePatterns pkg = Except.ok pats) →
      (verifyPackages gm cwd l.SourceDir l.TargetDir pkgs fs2 names = none ↔
        anyResidual gm cwd l.SourceDir l.TargetDir pkgs fs2 names = false)) ∧
    (∀ (n : String) (pkg : FTree) (pats : List String) (fs1 : FS),
      findPackage (findPackages entries) n = some pkg →
      loadIgnorePatterns pkg = Except.ok pats →
      l.Unlink gm cwd entries [n] fs = (fs1, none) →
      l.UnlinkVerified gm cwd entries [n] fs = (fs1, none)) := by
  refine ⟨?_, ?_, ?_, ?_, ?_, ?_⟩
  · intro fs1 err h
    unfold Linker.UnlinkVerified
    rw [h]
  · intro fs1 h
    unfold Linker.UnlinkVerified
    rw [h]
  · intro s t fs2 es
    exact verifyEntries_none_iff cwd s t fs2 es
  · intro s t fs2 es err h
    exact verifyEntries_some cwd s t fs2 es err h
  · intro pkgs fs2
    induction names with
    | nil =>
      intro _
      rw [verifyPackages, anyResidual]
      simp
    | cons n ns ih =>
      intro hres
      obtain ⟨pkg, hfind, pats, hload⟩ := hres n (List.mem_cons_self _ _)
      have hih := ih (fun n' hn' => hres n' (List.mem_cons_of_mem _ hn'))
      rw [verifyPackages, hfind]
      show (match verifyPackage gm cwd l.SourceDir l.TargetDir n pkg fs2 with
        | some e => some e
        | none =>
          verifyPackages gm cwd l.SourceDir l.TargetDir pkgs fs2 ns) =
          none ↔ _
      have hvp : verifyPackage gm cwd l.SourceDir l.TargetDir n pkg fs2 =
          verifyEntries cwd (l.SourceDir ++ [n]) l.TargetDir fs2
            (planTop gm pats pkg) := by
        unfold verifyPackage
        rw [hload]
      rw [hvp]
      simp only [anyResidual, List.any_cons]
      have hfn : (match findPackage pkgs n with
          | none => false
          | some pkg =>
            match loadIgnorePatterns pkg with
            | Except.error _ => false
            | Except.ok patterns =>
              (planTop gm patterns pkg).any
                (residualEntry cwd (l.SourceDir ++ [n]) l.TargetDir fs2)) =
          (planTop gm pats pkg).any
            (residualEntry cwd (l.SourceDir ++ [n]) l.TargetDir fs2) := by
        rw [hfind]
        show (match loadIgnorePatterns pkg with
          | Except.error _ => false
          | Except.ok patterns =>
            (planTop gm patterns pkg).any
              (residualEntry cwd (l.SourceDir ++ [n]) l.TargetDir fs2)) = _
        rw [hload]
      rw [hfn]
      cases hve : verifyEntries cwd (l.SourceDir ++ [n]) l.TargetDir fs2
          (planTop gm pats pkg) with
      | some e =>
        obtain ⟨e0, he0, hres0, _⟩ :=
          verifyEntries_some cwd (l.SourceDir ++ [n]) l.TargetDir fs2
            (planTop gm pats pkg) e hve
        have hany : (planTop gm pats pkg).any
            (residualEntry cwd (l.SourceDir ++ [n]) l.TargetDir fs2) =
            true :=
          List.any_eq_true.mpr ⟨e0, he0, hres0⟩
        rw [hany]
        simp
      | none =>
        have hall := (verifyEntries_none_iff cwd (l.SourceDir ++ [n])
          l.TargetDir fs2 (planTop gm pats pkg)).mp hve
        have hany : (planTop gm pats pkg).any
            (residualEntry cwd (l.SourceDir ++ [n]) l.TargetDir fs2) =
            false := by
          cases ha : (planTop gm pats pkg).any
              (residualEntry cwd (l.SourceDir ++ [n]) l.TargetDir fs2) with
          | false => rfl
          | true =>
            obtain ⟨x, hx, hrx⟩ := List.any_eq_true.mp ha
            rw [hall x hx] at hrx
            cases hrx
        rw [hany]
        simp only [Bool.false_or]
        exact hih
  · intro n pkg pats fs1 hfind hload hrun
    have hufs : fs1 = unlinkEntries cwd (l.SourceDir ++ [n]) l.TargetDir fs
        (planTop gm pats pkg) := by
      have hEq := (hrun.symm.trans
        (Unlink_single_eq l gm cwd entries n pkg pats fs hfind hload))
      exact congrArg Prod.fst hEq
    unfold Linker.UnlinkVerified
    rw [hrun]
    show (fs1, verifyPackages gm cwd l.SourceDir l.TargetDir
      (findPackages entries) fs1 [n]) = (fs1, none)
    have hver : verifyPackages gm cwd l.SourceDir l.TargetDir
        (findPackages entries) fs1 [n] = none := by
      rw [verifyPackages, hfind]
      show (match verifyPackage gm cwd l.SourceDir l.TargetDir n pkg fs1 with
        | some e => some e
        | none => verifyPackages gm cwd l.SourceDir l.TargetDir
            (findPackages entries) fs1 []) = none
      have hvp : verifyPackage gm cwd l.SourceDir l.TargetDir n pkg fs1 =
          verifyEntries cwd (l.SourceDir ++ [n]) l.TargetDir fs1
            (planTop gm pats pkg) := by
        unfold verifyPackage
        rw [hload]
      rw [hvp]
      have hnone : verifyEntries cwd (l.SourceDir ++ [n]) l.TargetDir fs1
          (planTop gm pats pkg) = none :=
        (verifyEntries_none_iff cwd (l.SourceDir ++ [n]) l.TargetDir fs1
          (planTop gm pats pkg)).mpr (fun e he => by
            rw [hufs]
            exact unlinkEntries_clears cwd (l.SourceDir ++ [n]) l.TargetDir
              (planTop gm pats pkg) fs e he)
      rw [hnone]
      rfl
    rw [hver]

/-- concrete instance of `unlink_verification_spec`: unlinking the only
link of a one-file package passes the post-unlink verification. -/
theorem unlink_verification_spec_witness :
    Linker.UnlinkVerified ⟨["src"], ["t"]⟩ (fun _ _ => Except.ok false) []
      [("p", FTree.dir [("f", FTree.file "c")])] ["p"]
      [(["t", "f"], Node.symlink ⟨true, ["src", "p", "f"]⟩),
       ([], Node.dir), (["t"], Node.dir)] =
      ([([], Node.dir), (["t"], Node.dir)], none) :=
  (unlink_verification_spec ⟨["src"], ["t"]⟩ (fun _ _ => Except.ok false) []
    [("p", FTree.dir [("f", FTree.file "c")])] ["p"]
    [(["t", "f"], Node.symlink ⟨true, ["src", "p", "f"]⟩),
     ([], Node.dir), (["t"], Node.dir)]).2.2.2.2.2
    "p" (FTree.dir [("f", FTree.file "c")]) []
    [([], Node.dir), (["t"], Node.dir)] (by rfl) (by rfl) (by rfl)

theorem linkEntryMode_dir (dryRun : Bool) (s t : Fpath) (fs : FS)
    (e : PathEntry) (hd : e.isDir = true) :
    linkEntryMode dryRun s t fs e =
      match mkdirAll fs (t ++ e.rel) with
      | (fs1, true) => ((if dryRun then fs else fs1), none)
      | (fs1, false) =>
        ((if dryRun then fs else fs1),
         some (GErr.mkdirFailed (t ++ e.rel))) := by
  unfold linkEntryMode
  rw [hd, if_pos rfl]

theorem linkEntryMode_file_symlink (dryRun : Bool) (s t : Fpath) (fs : FS)
    (e : PathEntry) (lt : SPath) (hd : e.isDir = false)
    (hl : FS.lookup fs (t ++ e.rel) = some (Node.symlink lt)) :
    linkEntryMode dryRun s t fs e =
      if linkMatches (s ++ e.rel) (t ++ e.rel) lt = true then (fs, none)
      else (fs, some (GErr.conflict (t ++ e.rel))) := by
  unfold linkEntryMode
  rw [hd, if_neg Bool.false_ne_true, hl]

theorem linkEntryMode_file_other (dryRun : Bool) (s t : Fpath) (fs : FS)
    (e : PathEntry) (n : Node) (hd : e.isDir = false)
    (hl : FS.lookup fs (t ++ e.rel) = some n)
    (hn : ∀ lt, n ≠ Node.symlink lt) :
    linkEntryMode dryRun s t fs e =
      (fs, some (GErr.conflict (t ++ e.rel))) := by
  unfold linkEntryMode
  rw [hd, if_neg Bool.false_ne_true, hl]
  cases n with
  | file c => rfl
  | dir => rfl
  | symlink lt => exact absurd rfl (hn lt)

theorem linkEntryMode_file_none (dryRun : Bool) (s t : Fpath) (fs : FS)
    (e : PathEntry) (hd : e.isDir = false)
    (hl : FS.lookup fs (t ++ e.rel) = none) :
    linkEntryMode dryRun s t fs e =
      match mkdirAll fs (t ++ e.rel).dropLast with
      | (fs1, false) =>
        ((if dryRun then fs else fs1),
         some (GErr.mkdirFailed (t ++ e.rel).dropLast))
      | (fs1, true) =>
        ((if dryRun then fs
          else FS.set fs1 (t ++ e.rel)
            (Node.symlink (SPath.mk true (cleanAbs (s ++ e.rel))))),
         none) := by
  unfold linkEntryMode
  rw [hd, if_neg Bool.false_ne_true, hl]

theorem linkEntryMode_true (s t : Fpath) (fs : FS) (e : PathEntry) :
    (linkEntryMode true s t fs e).1 = fs ∧
    (linkEntryMode true s t fs e).2 = (linkEntry s t fs e).2 := by
  cases hd : e.isDir with
  | true =>
    rw [linkEntryMode_dir true s t fs e hd, linkEntry_dir s t fs e hd]
    cases hM : mkdirAll fs (t ++ e.rel) with
    | mk fs1 b =>
      cases b with
      | true => exact ⟨rfl, rfl⟩
      | false => exact ⟨rfl, rfl⟩
  | false =>
    cases hl : FS.lookup fs (t ++ e.rel) with
    | none =>
      rw [linkEntryMode_file_none true s t fs e hd hl,
        linkEntry_file_none s t fs e hd hl]
      cases hM : mkdirAll fs (t ++ e.rel).dropLast with
      | mk fs1 b =>
        cases b with
        | true => exact ⟨rfl, rfl⟩
        | false => exact ⟨rfl, rfl⟩
    | some n =>
      cases n with
      | symlink lt =>
        rw [linkEntryMode_file_symlink true s t fs e lt hd hl,
          linkEntry_file_symlink s t fs e lt hd hl]
        by_cases hm : linkMatches (s ++ e.rel) (t ++ e.rel) lt = true
        · rw [if_pos hm]
          exact ⟨rfl, rfl⟩
        · rw [if_neg hm]
          exact ⟨rfl, rfl⟩
      | file c =>
        rw [linkEntryMode_file_other true s t fs e (Node.file c) hd hl
            (fun lt h => by cases h),
          linkEntry_file_other s t fs e (Node.file c) hd hl
            (fun lt h => by cases h)]
        exact ⟨rfl, rfl⟩
      | dir =>
        rw [linkEntryMode_file_other true s t fs e Node.dir hd hl
            (fun lt h => by cases h),
          linkEntry_file_other s t fs e Node.dir hd hl
            (fun lt h => by cases h)]
        exact ⟨rfl, rfl⟩

theorem linkEntriesMode_true (s t : Fpath) :
    ∀ (es : List PathEntry) (fs : FS),
      (linkEntriesMode true s t fs es).1 = fs := by
  intro es
  induction es with
  | nil => intro fs; rfl
  | cons e es ih =>
    intro fs
    rw [linkEntriesMode]
    obtain ⟨h1, _⟩ := linkEntryMode_true s t fs e
    cases hE : linkEntryMode true s t fs e with
    | mk fs1 r =>
      rw [hE] at h1
      cases r with
      | some err => exact h1
      | none => exact (ih fs1).trans h1

theorem linkPackageMode_true (gm : GlobMatcher) (sd td : Fpath) (n : String)
    (pkg : FTree) (fs : FS) :
    (linkPackageMode true gm sd td n pkg fs).1 = fs := by
  unfold linkPackageMode
  cases hL : loadIgnorePatterns pkg with
  | error u => rfl
  | ok pats =>
    exact linkEntriesMode_true (sd ++ [n]) td (planTop gm pats pkg) fs

theorem linkPackagesMode_true (gm : GlobMatcher) (sd td : Fpath)
    (pkgs : List (String × FTree)) :
    ∀ (ns : List String) (fs : FS),
      (linkPackagesMode true gm sd td pkgs fs ns).1 = fs := by
  intro ns
  induction ns with
  | nil => intro fs; rfl
  | cons n ns ih =>
    intro fs
    rw [linkPackagesMode]
    cases hf : findPackage pkgs n with
    | none => rfl
    | some pkg =>
      show (match linkPackageMode true gm sd td n pkg fs with
        | (fs1, some err) => (fs1, some err)
        | (fs1, none) => linkPackagesMode true gm sd td pkgs fs1 ns).1 = fs
      have h1 := linkPackageMode_true gm sd td n pkg fs
      cases hP : linkPackageMode true gm sd td n pkg fs with
      | mk fs1 r =>
        rw [hP] at h1
        cases r with
        | some err => exact h1
        | none => exact (ih fs1).trans h1

theorem LinkMode_fst_true (l : Linker) (gm : GlobMatcher)
    (entries : List (String × FTree)) (names : List String) (fs : FS) :
    (l.LinkMode true gm entries names fs).1 = fs := by
  unfold Linker.LinkMode
  cases hf : findPackages entries with
  | nil => rfl
  | cons p ps =>
    exact linkPackagesMode_true gm l.SourceDir l.TargetDir (p :: ps) names fs

theorem unlinkEntryMode_skip (dryRun : Bool) (cwd s t : Fpath) (fs : FS)
    (e : PathEntry)
    (h : ∀ lt, FS.lookup fs (t ++ e.rel) = some (Node.symlink lt) →
      (absPath cwd lt == cleanAbs (s ++ e.rel)) = false) :
    unlinkEntryMode dryRun cwd s t fs e = fs := by
  show (match FS.lookup fs (t ++ e.rel) with
    | some (Node.symlink lt) =>
      if (absPath cwd lt == cleanAbs (s ++ e.rel)) = true then
        if dryRun = true then fs
        else removeEmptyParents (FS.erase fs (t ++ e.rel)) (t ++ e.rel) t
      else fs
    | _ => fs) = fs
  cases hl : FS.lookup fs (t ++ e.rel) with
  | none => rfl
  | some n =>
    cases n with
    | file c => rfl
    | dir => rfl
    | symlink lt => simp [h lt hl]

theorem unlinkEntryMode_remove (dryRun : Bool) (cwd s t : Fpath) (fs : FS)
    (e : PathEntry) {lt : SPath}
    (hl : FS.lookup fs (t ++ e.rel) = some (Node.symlink lt))
    (hm : (absPath cwd lt == cleanAbs (s ++ e.rel)) = true) :
    unlinkEntryMode dryRun cwd s t fs e =
      if dryRun = true then fs
      else removeEmptyParents (FS.erase fs (t ++ e.rel)) (t ++ e.rel) t := by
  show (match FS.lookup fs (t ++ e.rel) with
    | some (Node.symlink lt) =>
      if (absPath cwd lt == cleanAbs (s ++ e.rel)) = true then
        if dryRun = true then fs
        else removeEmptyParents (FS.erase fs (t ++ e.rel)) (t ++ e.rel) t
      else fs
    | _ => fs) = _
  rw [hl]
  simp [hm]

theorem unlinkEntryMode_true (cwd s t : Fpath) (fs : FS) (e : PathEntry) :
    unlinkEntryMode true cwd s t fs e = fs := by
  cases hl : FS.lookup fs (t ++ e.rel) with
  | none =>
    exact unlinkEntryMode_skip true cwd s t fs e
      (fun lt h => by rw [hl] at h; cases h)
  | some n =>
    cases n with
    | file c =>
      exact unlinkEntryMode_skip true cwd s t fs e
        (fun lt h => by rw [hl] at h; cases h)
    | dir =>
      exact unlinkEntryMode_skip true cwd s t fs e
        (fun lt h => by rw [hl] at h; cases h)
    | symlink lt =>
      by_cases hm : (absPath cwd lt == cleanAbs (s ++ e.rel)) = true
      · rw [unlinkEntryMode_remove true cwd s t fs e hl hm]
        rfl
      · exact unlinkEntryMode_skip true cwd s t fs e (fun lt' h => by
          rw [hl] at h
          injection h with h2
          injection h2 with h3
          rw [← h3]
          rw [Bool.not_eq_true] at hm
          exact hm)

theorem unlinkEntriesMode_true (cwd s t : Fpath) :
    ∀ (es : List PathEntry) (fs : FS),
      unlinkEntriesMode true cwd s t fs es = fs := by
  intro es
  induction es with
  | nil => intro fs; rfl
  | cons e es ih =>
    intro fs
    rw [unlinkEntriesMode, unlinkEntryMode_true, ih fs]

theorem unlinkPackageMode_true (gm : GlobMatcher) (cwd sd td : Fpath)
    (n : String) (pkg : FTree) (fs : FS) :
    (unlinkPackageMode true gm cwd sd td n pkg fs).1 = fs := by
  unfold unlinkPackageMode
  cases hL : loadIgnorePatterns pkg with
  | error u => rfl
  | ok pats =>
    exact unlinkEntriesMode_true cwd (sd ++ [n]) td (planTop gm pats pkg) fs

theorem unlinkPackagesMode_true (gm : GlobMatcher) (cwd sd td : Fpath)
    (pkgs : List (String × FTree)) :
    ∀ (ns : List String) (fs : FS),
      (unlinkPackagesMode true gm cwd sd td pkgs fs ns).1 = fs := by
  intro ns
  induction ns with
  | nil => intro fs; rfl
  | cons n ns ih =>
    intro fs
    rw [unlinkPackagesMode]
    cases hf : findPackage pkgs n with
    | none => rfl
    | some pkg =>
      show (match unlinkPackageMode true gm cwd sd td n pkg fs with
        | (fs1, some err) => (fs1, some err)
        | (fs1, none) => unlinkPackagesMode true gm cwd sd td pkgs fs1 ns).1 =
        fs
      have h1 := unlinkPackageMode_true gm cwd sd td n pkg fs
      cases hP : unlinkPackageMode true gm cwd sd td n pkg fs with
      | mk fs1 r =>
        rw [hP] at h1
        cases r with
        | some err => exact h1
        | none => exact (ih fs1).trans h1

theorem UnlinkMode_fst_true (l : Linker) (gm : GlobMatcher) (cwd : Fpath)
    (entries : List (String × FTree)) (names : List String) (fs : FS) :
    (l.UnlinkMode true gm cwd entries names fs).1 = fs := by
  unfold Linker.UnlinkMode
  cases hf : findPackages entries with
  | nil => rfl
  | cons p ps =>
    exact unlinkPackagesMode_true gm cwd l.SourceDir l.TargetDir (p :: ps)
      names fs

theorem linkEntryMode_false (s t : Fpath) (fs : FS) (e : PathEntry) :
    linkEntryMode false s t fs e = linkEntry s t fs e := by
  cases hd : e.isDir with
  | true =>
    rw [linkEntryMode_dir false s t fs e hd, linkEntry_dir s t fs e hd]
    cases hM : mkdirAll fs (t ++ e.rel) with
    | mk fs1 b =>
      cases b with
      | true => rfl
      | false => rfl
  | false =>
    cases hl : FS.lookup fs (t ++ e.rel) with
    | none =>
      rw [linkEntryMode_file_none false s t fs e hd hl,
        linkEntry_file_none s t fs e hd hl]
      cases hM : mkdirAll fs (t ++ e.rel).dropLast with
      | mk fs1 b =>
        cases b with
        | true => rfl
        | false => rfl
    | some n =>
      cases n with
      | symlink lt =>
        rw [linkEntryMode_file_symlink false s t fs e lt hd hl,
          linkEntry_file_symlink s t fs e lt hd hl]
      | file c =>
        rw [linkEntryMode_file_other false s t fs e (Node.file c) hd hl
            (fun lt h => by cases h),
          linkEntry_file_other s t fs e (Node.file c) hd hl
            (fun lt h => by cases h)]
      | dir =>
        rw [linkEntryMode_file_other false s t fs e Node.dir hd hl
            (fun lt h => by cases h),
          linkEntry_file_other s t fs e Node.dir hd hl
            (fun lt h => by cases h)]

theorem linkEntriesMode_false (s t : Fpath) :
    ∀ (es : List PathEntry) (fs : FS),
      linkEntriesMode false s t fs es = linkEntries s t fs es := by
  intro es
  induction es with
  | nil => intro fs; rfl
  | cons e es ih =>
    intro fs
    rw [linkEntriesMode, linkEntries, linkEntryMode_false]
    cases hE : linkEntry s t fs e with
    | mk fs1 r =>
      cases r with
      | some err => rfl
      | none => exact ih fs1

theorem linkPackageMode_false (gm : GlobMatcher) (sd td : Fpath) (n : String)
    (pkg : FTree) (fs : FS) :
    linkPackageMode false gm sd td n pkg fs = linkPackage gm sd td n pkg fs := by
  unfold linkPackageMode linkPackage
  cases hL : loadIgnorePatterns pkg with
  | error u => rfl
  | ok pats =>
    exact linkEntriesMode_false (sd ++ [n]) td (planTop gm pats pkg) fs

theorem linkPackagesMode_false (gm : GlobMatcher) (sd td : Fpath)
    (pkgs : List (String × FTree)) :
    ∀ (ns : List String) (fs : FS),
      linkPackagesMode false gm sd td pkgs fs ns =
        linkPackages gm sd td pkgs fs ns := by
  intro ns
  induction ns with
  | nil => intro fs; rfl
  | cons n ns ih =>
    intro fs
    rw [linkPackagesMode, linkPackages]
    cases hf : findPackage pkgs n with
    | none => rfl
    | some pkg =>
      show (match linkPackageMode false gm sd td n pkg fs with
        | (fs1, some err) => (fs1, some err)
        | (fs1, none) => linkPackagesMode false gm sd td pkgs fs1 ns) =
        match linkPackage gm sd td n pkg fs with
        | (fs1, some err) => (fs1, some err)
        | (fs1, none) => linkPackages gm sd td pkgs fs1 ns
      rw [linkPackageMode_false gm sd td n pkg fs]
      cases hP : linkPackage gm sd td n pkg fs with
      | mk fs1 r =>
        cases r with
        | some err => rfl
        | none => exact ih fs1

theorem LinkMode_false_eq (l : Linker) (gm : GlobMatcher)
    (entries : List (String × FTree)) (names : List String) (fs : FS) :
    l.LinkMode false gm entries names fs = l.Link gm entries names fs := by
  unfold Linker.LinkMode Linker.Link
  cases hf : findPackages entries with
  | nil => rfl
  | cons p ps =>
    exact linkPackagesMode_false gm l.SourceDir l.TargetDir (p :: ps) names fs

theorem unlinkEntryMode_false (cwd s t : Fpath) (fs : FS) (e : PathEntry) :
    unlinkEntryMode false cwd s t fs e = unlinkEntry cwd s t fs e := by
  cases hl : FS.lookup fs (t ++ e.rel) with
  | none =>
    rw [unlinkEntryMode_skip false cwd s t fs e
        (fun lt h => by rw [hl] at h; cases h),
      unlinkEntry_skip cwd s t fs e (fun lt h => by rw [hl] at h; cases h)]
  | some n =>
    cases n with
    | file c =>
      rw [unlinkEntryMode_skip false cwd s t fs e
          (fun lt h => by rw [hl] at h; cases h),
        unlinkEntry_skip cwd s t fs e (fun lt h => by rw [hl] at h; cases h)]
    | dir =>
      rw [unlinkEntryMode_skip false cwd s t fs e
          (fun lt h => by rw [hl] at h; cases h),
        unlinkEntry_skip cwd s t fs e (fun lt h => by rw [hl] at h; cases h)]
    | symlink lt =>
      by_cases hm : (absPath cwd lt == cleanAbs (s ++ e.rel)) = true
      · rw [unlinkEntryMode_remove false cwd s t fs e hl hm,
          unlinkEntry_remove cwd s t fs e hl hm]
        rfl
      · have hskip : ∀ lt', FS.lookup fs (t ++ e.rel) =
            some (Node.symlink lt') →
            (absPath cwd lt' == cleanAbs (s ++ e.rel)) = false := by
          intro lt' h
          rw [hl] at h
          injection h with h2
          injection h2 with h3
          rw [← h3]
          rw [Bool.not_eq_true] at hm
          exact hm
        rw [unlinkEntryMode_skip false cwd s t fs e hskip,
          unlinkEntry_skip cwd s t fs e hskip]

theorem unlinkEntriesMode_false (cwd s t : Fpath) :
    ∀ (es : List PathEntry) (fs : FS),
      unlinkEntriesMode false cwd s t fs es = unlinkEntries cwd s t fs es := by
  intro es
  induction es with
  | nil => intro fs; rfl
  | cons e es ih =>
    intro fs
    rw [unlinkEntriesMode, unlinkEntries, unlinkEntryMode_false]
    exact ih (unlinkEntry cwd s t fs e)

theorem unlinkPackageMode_false (gm : GlobMatcher) (cwd sd td : Fpath)
    (n : String) (pkg : FTree) (fs : FS) :
    unlinkPackageMode false gm cwd sd td n pkg fs =
      unlinkPackage gm cwd sd td n pkg fs := by
  unfold unlinkPackageMode unlinkPackage
  cases hL : loadIgnorePatterns pkg with
  | error u => rfl
  | ok pats =>
    show (unlinkEntriesMode false cwd (sd ++ [n]) td fs (planTop gm pats pkg),
        (none : Option GErr)) =
      (unlinkEntries cwd (sd ++ [n]) td fs (planTop gm pats pkg), none)
    rw [unlinkEntriesMode_false cwd (sd ++ [n]) td (planTop gm pats pkg) fs]

theorem unlinkPackagesMode_false (gm : GlobMatcher) (cwd sd td : Fpath)
    (pkgs : List (String × FTree)) :
    ∀ (ns : List String) (fs : FS),
      unlinkPackagesMode false gm cwd sd td pkgs fs ns =
        unlinkPackages gm cwd sd td pkgs fs ns := by
  intro ns
  induction ns with
  | nil => intro fs; rfl
  | cons n ns ih =>
    intro fs
    rw [unlinkPackagesMode, unlinkPackages]
    cases hf : findPackage pkgs n with
    | none => rfl
    | some pkg =>
      show (match unlinkPackageMode false gm cwd sd td n pkg fs with
        | (fs1, some err) => (fs1, some err)
        | (fs1, none) => unlinkPackagesMode false gm cwd sd td pkgs fs1 ns) =
        match unlinkPackage gm cwd sd td n pkg fs with
        | (fs1, some err) => (fs1, some err)
        | (fs1, none) => unlinkPackages gm cwd sd td pkgs fs1 ns
      rw [unlinkPackageMode_false gm cwd sd td n pkg fs]
      cases hP : unlinkPackage gm cwd sd td n pkg fs with
      | mk fs1 r =>
        cases r with
        | some err => rfl
        | none => exact ih fs1

theorem UnlinkMode_false_eq (l : Linker) (gm : GlobMatcher) (cwd : Fpath)
    (entries : List (String × FTree)) (names : List String) (fs : FS) :
    l.UnlinkMode false gm cwd entries names fs =
      l.Unlink gm cwd entries names fs := by
  unfold Linker.UnlinkMode Linker.Unlink
  cases hf : findPackages entries with
  | nil => rfl
  | cons p ps =>
    exact unlinkPackagesMode_false gm cwd l.SourceDir l.TargetDir (p :: ps)
      names fs

/-- C9 (Modelled from the spec: src/linker.go's Linker lacks the DryRun
field that its repository callers set, so the dry-run switch follows the
spec's words): with dry-run on, Link and Unlink leave the filesystem exactly
unchanged — no directory created, no symlink created or removed, no parent
pruned — while each per-entry check (target inspection, conflict detection,
correctness-relation comparison) still runs and yields the verdict of the
real operation on that state; with dry-run off, both operations coincide
with the real Link and Unlink. -/
theorem dry_run_no_mutation (l : Linker) (gm : GlobMatcher) (cwd : Fpath)
    (entries : List (String × FTree)) (names : List String) (fs : FS) :
    (l.LinkMode true gm entries names fs).1 = fs ∧
    (l.UnlinkMode true gm cwd entries names fs).1 = fs ∧
    (∀ (s t : Fpath) (e : PathEntry),
      (linkEntryMode true s t fs e).1 = fs ∧
      (linkEntryMode true s t fs e).2 = (linkEntry s t fs e).2) ∧
    (∀ (s t : Fpath) (e : PathEntry),
      unlinkEntryMode true cwd s t fs e = fs) ∧
    l.LinkMode false gm entries names fs = l.Link gm entries names fs ∧
    l.UnlinkMode false gm cwd entries names fs =
      l.Unlink gm cwd entries names fs :=
  ⟨LinkMode_fst_true l gm entries names fs,
   UnlinkMode_fst_true l gm cwd entries names fs,
   fun s t e => linkEntryMode_true s t fs e,
   fun s t e => unlinkEntryMode_true cwd s t fs e,
   LinkMode_false_eq l gm entries names fs,
   UnlinkMode_false_eq l gm cwd entries names fs⟩

end Gslk
